import Mathlib

/-!
A shallow embedding of the Inverted Encoding Model estimator implemented in
`brainiak/reconstruct/iem.py`, together with theorems checking the claims of
the specification against it.

Modelling conventions:
* machine floats are modelled as real numbers (`ℝ`), with exact arithmetic;
* `np.linspace a b num` is `fun j => a + j * ((b - a) / (num - 1))` (the
  endpoint-inclusive linear grid, exact over `ℝ`);
* `np.argmin` / `np.argmax` return the first index attaining the extremum,
  modelled by `argminIdx` / `argmaxIdx` below;
* `sklearn.linear_model.LinearRegression(fit_intercept=False)` is ordinary
  least squares; it is modelled by the normal-equation solution
  `lstsq A B = (Aᵀ*A)⁻¹ * Aᵀ * B`, which coincides with the library solver
  whenever the design matrix has full column rank (`Matrix.inv` is Mathlib's
  adjugate-based inverse, the zero matrix on singular input);
* raising a `ValueError` is modelled by returning `Except.error` with the
  exact message string of the source; mutation of `self` is modelled by
  returning the new fitted state in `Except.ok`, so a run that errors
  produces no state change.
-/

namespace IEM

open Real Matrix

open scoped Classical

/-- Model of `np.linspace a b num` (endpoint inclusive): the j-th sample is
`a + j * step` with `step = (b - a) / (num - 1)`. -/
noncomputable def linspace (a b : ℝ) (num : ℕ) : Fin num → ℝ :=
  fun j => a + (j : ℝ) * ((b - a) / ((num : ℝ) - 1))

/-- Source line `channel_exp = 6` in `_define_channels`. -/
abbrev channel_exp : ℕ := 6

/-- Source line `channel_density = 180` in `_define_channels`. -/
abbrev channel_density : ℕ := 180

/-- The three constructor hyperparameters of `InvertedEncoding`
(`n_channels`, `range_start`, `range_stop`).  `n_channels` is a Python int,
modelled as `ℤ`; the ranges are modelled as reals. -/
structure Params where
  n_channels : ℤ
  range_start : ℝ
  range_stop : ℝ

/-- `shifts = np.linspace(0, pi - pi/n_channels, n_channels)`. -/
noncomputable def shifts (p : Params) : Fin p.n_channels.toNat → ℝ :=
  linspace 0 (π - π / (p.n_channels : ℝ)) p.n_channels.toNat

/-- `np.linspace(0, pi, channel_density)`: the sample points of the basis. -/
noncomputable def sampleGrid : Fin channel_density → ℝ :=
  linspace 0 π channel_density

/-- `channels[i, :] = np.cos(np.linspace(0, pi, channel_density) - shifts[i]) ** channel_exp`. -/
noncomputable def channels (p : Params) :
    Matrix (Fin p.n_channels.toNat) (Fin channel_density) ℝ :=
  Matrix.of fun i j => cos (sampleGrid j - shifts p i) ^ channel_exp

/-- `channel_domain = np.linspace(range_start, range_stop, channel_density)`. -/
noncomputable def channelDomain (p : Params) : Fin channel_density → ℝ :=
  linspace p.range_start p.range_stop channel_density

/-- `np.sum(channels, 0)` evaluated at sample j. -/
noncomputable def chSum (p : Params) (j : Fin channel_density) : ℝ :=
  ∑ i, channels p i j

/-- `ch_sum_range = np.max(np.sum(channels, 0)) - min(np.sum(channels, 0))`. -/
noncomputable def chSumRange (p : Params) : ℝ :=
  Finset.univ.sup' Finset.univ_nonempty (chSum p) -
    Finset.univ.inf' Finset.univ_nonempty (chSum p)

/-- `np.deg2rad`. -/
noncomputable def deg2rad (x : ℝ) : ℝ := x * π / 180

/-- `_define_channels`: build the basis and the domain, then perform the
coverage check; on failure raise `ValueError("Insufficient channel coverage.")`. -/
noncomputable def defineChannels (p : Params) :
    Except String
      (Matrix (Fin p.n_channels.toNat) (Fin channel_density) ℝ ×
        (Fin channel_density → ℝ)) :=
  if chSumRange p > deg2rad (p.range_stop - p.range_start) * 0.1 then
    .error ("Insufficient channel coverage.")
  else
    .ok (channels p, channelDomain p)

/-- The input-validation prefix of `fit` (source lines 120-134), acting on
`n_channels`, `np.shape(X)` and `len(y)`; returns the message of the first
`ValueError` raised, or `none` when all checks pass. -/
def fitValidate (nch : ℤ) (xshape : List ℕ) (ylen : ℕ) : Option String :=
  if nch < 2 then some ("Insufficient channels.")
  else if xshape.length < 2 then some ("Not enough data")
  else if xshape.getD 0 0 ≤ xshape.getD 1 0 then some ("Data Matrix ill-conditioned")
  else if xshape.getD 0 0 ≠ ylen then some ("Mismatched data samples and label samples")
  else none

/-- First index attaining the maximum of `f` (the semantics of `np.argmax`). -/
noncomputable def argmaxIdx {n : ℕ} [NeZero n] (f : Fin n → ℝ) : Fin n :=
  (Finset.univ.filter fun i => ∀ j, f j ≤ f i).min' (by
    obtain ⟨b, _, hb⟩ :=
      Finset.exists_max_image Finset.univ f Finset.univ_nonempty
    exact ⟨b, Finset.mem_filter.2 ⟨Finset.mem_univ b, fun j => hb j (Finset.mem_univ j)⟩⟩)

/-- First index attaining the minimum of `f` (the semantics of `np.argmin`). -/
noncomputable def argminIdx {n : ℕ} [NeZero n] (f : Fin n → ℝ) : Fin n :=
  (Finset.univ.filter fun i => ∀ j, f i ≤ f j).min' (by
    obtain ⟨b, _, hb⟩ :=
      Finset.exists_min_image Finset.univ f Finset.univ_nonempty
    exact ⟨b, Finset.mem_filter.2 ⟨Finset.mem_univ b, fun j => hb j (Finset.mem_univ j)⟩⟩)

/-- The fitted state of the estimator: `C_`, `C_D_` and the coefficient
matrix `W_.coef_` of the fitted forward regression (sklearn stores the
coefficients with shape `[n_targets, n_features] = [n_units, n_channels]`). -/
structure Fitted (nc un : ℕ) where
  C : Matrix (Fin nc) (Fin channel_density) ℝ
  C_D : Fin channel_density → ℝ
  W : Matrix (Fin un) (Fin nc) ℝ

/-- Ordinary least squares with no intercept: the solution `S` of
`min ‖A * S - B‖` by the normal equations.  Models
`LinearRegression(fit_intercept=False).fit(A, B)`, whose solution the
returned `coef_` transposes. -/
noncomputable def lstsq {a b c : ℕ} (A : Matrix (Fin a) (Fin b) ℝ)
    (B : Matrix (Fin a) (Fin c) ℝ) : Matrix (Fin b) (Fin c) ℝ :=
  (Aᵀ * A)⁻¹ * Aᵀ * B

/-- The channel-activation matrix built in `fit`:
`F[i, :] = C[:, argmin((y[i] - C_D)**2)]`. -/
noncomputable def buildF {nc m : ℕ} (C : Matrix (Fin nc) (Fin channel_density) ℝ)
    (C_D : Fin channel_density → ℝ) (y : Fin m → ℝ) : Matrix (Fin m) (Fin nc) ℝ :=
  Matrix.of fun i ch => C ch (argminIdx fun k => (y i - C_D k) ^ 2)

/-- `fit`: validate the inputs (in source order), build the basis, build `F`
and fit the forward regression.  The `if h : m = tr` branch encodes that the
passing validation forces `len(y) = n_trials`; its else-branch is
unreachable once validation has passed. -/
noncomputable def fit (p : Params) {tr un m : ℕ}
    (X : Matrix (Fin tr) (Fin un) ℝ) (y : Fin m → ℝ) :
    Except String (Fitted p.n_channels.toNat un) :=
  match fitValidate p.n_channels [tr, un] m with
  | some e => .error e
  | none =>
    match defineChannels p with
    | .error e => .error e
    | .ok (C, C_D) =>
      if h : m = tr then
        .ok ⟨C, C_D, (lstsq (buildF C C_D fun i : Fin tr => y (Fin.cast h.symm i)) X)ᵀ⟩
      else
        .error ("Mismatched data samples and label samples")

/-- `_predict_channel_responses`: regress the stored coefficient matrix onto
`X.T`; the resulting `coef_` holds one channel-response row per trial. -/
noncomputable def channelResponses {nc un tr : ℕ} (M : Fitted nc un)
    (X : Matrix (Fin tr) (Fin un) ℝ) : Matrix (Fin tr) (Fin nc) ℝ :=
  (lstsq M.W Xᵀ)ᵀ

/-- `_predict_directions`: `pred_response = channel_response.dot(C_)`. -/
noncomputable def predResponse {nc un tr : ℕ} (M : Fitted nc un)
    (X : Matrix (Fin tr) (Fin un) ℝ) : Matrix (Fin tr) (Fin channel_density) ℝ :=
  channelResponses M X * M.C

/-- The decoded value per trial: `C_D_[np.argmax(pred_response, axis=1)]`. -/
noncomputable def predictVec {nc un tr : ℕ} (M : Fitted nc un)
    (X : Matrix (Fin tr) (Fin un) ℝ) : Fin tr → ℝ :=
  fun i => M.C_D (argmaxIdx fun j => predResponse M X i j)

/-- `predict`: shape-validate the (2-D, typed) input and decode.  The
`len(np.shape(X)) < 2` check of the source is vacuous for a typed matrix. -/
noncomputable def predict {nc un tr : ℕ} (M : Fitted nc un)
    (X : Matrix (Fin tr) (Fin un) ℝ) : Except String (Fin tr → ℝ) :=
  if tr ≤ un then .error ("Data Matrix ill-conditioned")
  else .ok (predictVec M X)

/-- `np.mean`. -/
noncomputable def npMean {m : ℕ} (y : Fin m → ℝ) : ℝ := (∑ i, y i) / m

/-- `score`: `1 - u / v` with `u = ((y - pred)**2).sum()` and
`v = ((y - np.mean(y))**2).sum()`; the division is unguarded in the source. -/
noncomputable def score {nc un tr : ℕ} (M : Fitted nc un)
    (X : Matrix (Fin tr) (Fin un) ℝ) (y : Fin tr → ℝ) : Except String ℝ :=
  (predict M X).map fun pred =>
    1 - (∑ i, (y i - pred i) ^ 2) / (∑ i, (y i - npMean y) ^ 2)

/-- The estimator object: its hyperparameters together with the (optional)
fitted state `C_`, `C_D_`, `W_`. -/
structure Estimator where
  params : Params
  fitted : Option ((nc : ℕ) × (un : ℕ) × Fitted nc un)

/-- `get_params`: the mapping with keys `n_channels`, `range_start`,
`range_stop`. -/
def get_params (e : Estimator) : Params := e.params

/-- `set_params(**kv)`: `setattr` for each of the three keys of the mapping;
the fitted state is not touched. -/
def set_params (e : Estimator) (kv : Params) : Estimator :=
  { e with params :=
      { n_channels := kv.n_channels
        range_start := kv.range_start
        range_stop := kv.range_stop } }

/-! ### Basic properties of the argmin / argmax model -/

theorem argmaxIdx_is_max {n : ℕ} [NeZero n] (f : Fin n → ℝ) (j : Fin n) :
    f j ≤ f (argmaxIdx f) := by
  have h := Finset.min'_mem (Finset.univ.filter fun i => ∀ j, f j ≤ f i)
    (by
      obtain ⟨b, _, hb⟩ :=
        Finset.exists_max_image Finset.univ f Finset.univ_nonempty
      exact ⟨b, Finset.mem_filter.2
        ⟨Finset.mem_univ b, fun j => hb j (Finset.mem_univ j)⟩⟩)
  exact (Finset.mem_filter.1 h).2 j

theorem argmaxIdx_le {n : ℕ} [NeZero n] (f : Fin n → ℝ) (k : Fin n)
    (hk : ∀ j, f j ≤ f k) : argmaxIdx f ≤ k :=
  Finset.min'_le _ _ (Finset.mem_filter.2 ⟨Finset.mem_univ k, hk⟩)

theorem argmaxIdx_eq {n : ℕ} [NeZero n] (f : Fin n → ℝ) (k : Fin n)
    (hk : ∀ j, f j ≤ f k) (hlt : ∀ j, j < k → f j < f k) : argmaxIdx f = k := by
  rcases lt_or_eq_of_le (argmaxIdx_le f k hk) with h | h
  · have h1 := hlt _ h
    have h2 := argmaxIdx_is_max f k
    linarith
  · exact h

theorem argmaxIdx_const {n : ℕ} [NeZero n] (c : ℝ) :
    argmaxIdx (fun _ : Fin n => c) = 0 := by
  apply argmaxIdx_eq
  · intro j; exact le_refl c
  · intro j hj
    exact absurd (Fin.lt_def.1 hj) (by simp)

theorem argminIdx_is_min {n : ℕ} [NeZero n] (f : Fin n → ℝ) (j : Fin n) :
    f (argminIdx f) ≤ f j := by
  have h := Finset.min'_mem (Finset.univ.filter fun i => ∀ j, f i ≤ f j)
    (by
      obtain ⟨b, _, hb⟩ :=
        Finset.exists_min_image Finset.univ f Finset.univ_nonempty
      exact ⟨b, Finset.mem_filter.2
        ⟨Finset.mem_univ b, fun j => hb j (Finset.mem_univ j)⟩⟩)
  exact (Finset.mem_filter.1 h).2 j

theorem argminIdx_le {n : ℕ} [NeZero n] (f : Fin n → ℝ) (k : Fin n)
    (hk : ∀ j, f k ≤ f j) : argminIdx f ≤ k :=
  Finset.min'_le _ _ (Finset.mem_filter.2 ⟨Finset.mem_univ k, hk⟩)

theorem argminIdx_eq {n : ℕ} [NeZero n] (f : Fin n → ℝ) (k : Fin n)
    (hk : ∀ j, f k ≤ f j) (hlt : ∀ j, j < k → f k < f j) : argminIdx f = k := by
  rcases lt_or_eq_of_le (argminIdx_le f k hk) with h | h
  · have h1 := hlt _ h
    have h2 := argminIdx_is_min f k
    linarith
  · exact h

theorem argminIdx_const {n : ℕ} [NeZero n] (c : ℝ) :
    argminIdx (fun _ : Fin n => c) = 0 := by
  apply argminIdx_eq
  · intro j; exact le_refl c
  · intro j hj
    exact absurd (Fin.lt_def.1 hj) (by simp)

/-! ### Claim C8: get_params / set_params round trip -/

/-- Claim C8: for every estimator state, `set_params(**get_params())` is a
no-op: the estimator (hyperparameters and any fitted state) is unchanged,
and a further `get_params()` returns the same mapping. -/
theorem claim_C8 (e : Estimator) :
    set_params e (get_params e) = e ∧
      get_params (set_params e (get_params e)) = get_params e :=
  ⟨rfl, rfl⟩

/-! ### Claim C3: fit validation order and error messages -/

/-- Claim C3: `fit` validates its inputs in source order — `n_channels < 2`
first (`"Insufficient channels."`), then fewer than two dimensions
(`"Not enough data"`), then `n_trials ≤ n_units`
(`"Data Matrix ill-conditioned"`), then `n_trials ≠ len(y)`
(`"Mismatched data samples and label samples"`) — and when validation fails
`fit` returns that error without producing any fitted state, so a failed
fit leaves prior model state unchanged. -/
theorem claim_C3 :
    (∀ (nch : ℤ) (xshape : List ℕ) (ylen : ℕ),
      (nch < 2 → fitValidate nch xshape ylen = some ("Insufficient channels.")) ∧
      (2 ≤ nch → xshape.length < 2 →
        fitValidate nch xshape ylen = some ("Not enough data")) ∧
      (2 ≤ nch → 2 ≤ xshape.length → xshape.getD 0 0 ≤ xshape.getD 1 0 →
        fitValidate nch xshape ylen = some ("Data Matrix ill-conditioned")) ∧
      (2 ≤ nch → 2 ≤ xshape.length → xshape.getD 1 0 < xshape.getD 0 0 →
        xshape.getD 0 0 ≠ ylen →
        fitValidate nch xshape ylen =
          some ("Mismatched data samples and label samples")) ∧
      (2 ≤ nch → 2 ≤ xshape.length → xshape.getD 1 0 < xshape.getD 0 0 →
        xshape.getD 0 0 = ylen → fitValidate nch xshape ylen = none)) ∧
    (∀ (p : Params) (tr un m : ℕ) (X : Matrix (Fin tr) (Fin un) ℝ)
        (y : Fin m → ℝ) (e : String),
      fitValidate p.n_channels [tr, un] m = some e → fit p X y = .error e) := by
  constructor
  · intro nch xshape ylen
    refine ⟨fun h1 => ?_, fun h1 h2 => ?_, fun h1 h2 h3 => ?_,
      fun h1 h2 h3 h4 => ?_, fun h1 h2 h3 h4 => ?_⟩
    · unfold fitValidate
      rw [if_pos h1]
    · unfold fitValidate
      rw [if_neg (by omega), if_pos h2]
    · unfold fitValidate
      rw [if_neg (by omega), if_neg (by omega), if_pos h3]
    · unfold fitValidate
      rw [if_neg (by omega), if_neg (by omega), if_neg (by omega), if_pos h4]
    · unfold fitValidate
      rw [if_neg (by omega), if_neg (by omega), if_neg (by omega),
        if_neg (fun hne => hne h4)]
  · intro p tr un m X y e h
    unfold fit
    rw [h]

/-- Witness for claim C3 at concrete inputs, one per validation branch. -/
theorem claim_C3_witness :
    fitValidate 1 [] 0 = some ("Insufficient channels.") ∧
    fitValidate 2 [5] 5 = some ("Not enough data") ∧
    fitValidate 2 [3, 3] 3 = some ("Data Matrix ill-conditioned") ∧
    fitValidate 2 [3, 2] 4 = some ("Mismatched data samples and label samples") ∧
    fitValidate 2 [3, 2] 3 = none ∧
    fit ⟨1, 0, 180⟩ (0 : Matrix (Fin 1) (Fin 1) ℝ) (fun _ : Fin 1 => 0) =
      .error ("Insufficient channels.") := by
  refine ⟨?_, ?_, ?_, ?_, ?_, ?_⟩
  · exact (claim_C3.1 1 [] 0).1 (by decide)
  · exact (claim_C3.1 2 [5] 5).2.1 (by decide) (by decide)
  · exact (claim_C3.1 2 [3, 3] 3).2.2.1 (by decide) (by decide) (by decide)
  · exact (claim_C3.1 2 [3, 2] 4).2.2.2.1 (by decide) (by decide) (by decide)
      (by decide)
  · exact (claim_C3.1 2 [3, 2] 3).2.2.2.2 (by decide) (by decide) (by decide)
      (by decide)
  · exact claim_C3.2 ⟨1, 0, 180⟩ 1 1 1 0 (fun _ => 0) _ (by decide)

/-! ### Trigonometric machinery for the channel sums -/

/-- Power-reduction of `cos θ ^ 6` to multiple angles. -/
theorem cos6_expand (θ : ℝ) :
    cos θ ^ 6 =
      10 / 32 + (15 / 32) * cos (2 * θ) + (6 / 32) * cos (4 * θ) +
        (1 / 32) * cos (6 * θ) := by
  have h2 : cos θ ^ 2 = 1 / 2 + cos (2 * θ) / 2 := Real.cos_sq θ
  have h4 : cos (4 * θ) = 2 * cos (2 * θ) ^ 2 - 1 := by
    have h := Real.cos_two_mul (2 * θ)
    rw [show 2 * (2 * θ) = 4 * θ by ring] at h
    exact h
  have h6 : cos (6 * θ) = 4 * cos (2 * θ) ^ 3 - 3 * cos (2 * θ) := by
    have h := Real.cos_three_mul (2 * θ)
    rw [show 3 * (2 * θ) = 6 * θ by ring] at h
    exact h
  have h66 : cos θ ^ 6 = (cos θ ^ 2) ^ 3 := by ring
  rw [h66, h2, h4, h6]
  ring

/-- Equally spaced cosine sum: when the step `k * π / n` is an even multiple
of `π / n` that does not complete full turns (`2 * n ∤ k`), the sum over one
sweep vanishes. -/
theorem sum_cos_zero (n : ℕ) (k : ℤ) (θ : ℝ) (hn : 0 < n) (hk : Even k)
    (hnd : ¬ ((2 * (n : ℤ)) ∣ k)) :
    ∑ i ∈ Finset.range n, cos (θ + (k : ℝ) * (i : ℝ) * π / (n : ℝ)) = 0 := by
  have hn0 : (n : ℝ) ≠ 0 := Nat.cast_ne_zero.2 hn.ne'
  have hstep : ∀ i : ℕ,
      Complex.exp (((θ + (k : ℝ) * (i : ℝ) * π / (n : ℝ) : ℝ) : ℂ) * Complex.I) =
        Complex.exp ((θ : ℂ) * Complex.I) *
          Complex.exp ((((k : ℝ) * π / (n : ℝ) : ℝ) : ℂ) * Complex.I) ^ i := by
    intro i
    rw [← Complex.exp_nat_mul, ← Complex.exp_add]
    congr 1
    push_cast
    ring
  have hsum : ∑ i ∈ Finset.range n,
      Complex.exp (((θ + (k : ℝ) * (i : ℝ) * π / (n : ℝ) : ℝ) : ℂ) * Complex.I) = 0 := by
    rw [Finset.sum_congr rfl fun i _ => hstep i, ← Finset.mul_sum]
    have hne : Complex.exp ((((k : ℝ) * π / (n : ℝ) : ℝ) : ℂ) * Complex.I) ≠ 1 := by
      intro h1
      have hre : cos ((k : ℝ) * π / (n : ℝ)) = 1 := by
        rw [← Complex.exp_ofReal_mul_I_re, h1]
        simp
      obtain ⟨m, hm⟩ := (Real.cos_eq_one_iff _).1 hre
      apply hnd
      refine ⟨m, ?_⟩
      have hπ : π ≠ 0 := Real.pi_ne_zero
      have hmul : (k : ℝ) * π = 2 * (n : ℝ) * (m : ℝ) * π := by
        field_simp at hm
        linarith [hm]
      have : (k : ℝ) = 2 * (n : ℝ) * (m : ℝ) := mul_right_cancel₀ hπ hmul
      exact_mod_cast this
    have hpow : Complex.exp ((((k : ℝ) * π / (n : ℝ) : ℝ) : ℂ) * Complex.I) ^ n = 1 := by
      obtain ⟨t, ht⟩ := hk
      rw [← Complex.exp_nat_mul]
      have harg : (n : ℂ) * ((((k : ℝ) * π / (n : ℝ) : ℝ) : ℂ) * Complex.I) =
          (t : ℂ) * (2 * (π : ℂ) * Complex.I) := by
        have hnC : (n : ℂ) ≠ 0 := Nat.cast_ne_zero.2 hn.ne'
        have hkC : (k : ℂ) = (t : ℂ) + (t : ℂ) := by exact_mod_cast ht
        push_cast
        field_simp
        rw [hkC]
        ring
      rw [harg, Complex.exp_int_mul_two_pi_mul_I]
    rw [geom_sum_eq hne, hpow]
    simp
  have hre : ∀ i : ℕ, cos (θ + (k : ℝ) * (i : ℝ) * π / (n : ℝ)) =
      (Complex.exp (((θ + (k : ℝ) * (i : ℝ) * π / (n : ℝ) : ℝ) : ℂ) * Complex.I)).re :=
    fun i => (Complex.exp_ofReal_mul_I_re _).symm
  rw [Finset.sum_congr rfl fun i _ => hre i, ← Complex.re_sum, hsum]
  simp

/-- Equally spaced cosine sum completing whole turns: each summand equals
`cos θ`. -/
theorem sum_cos_full (n : ℕ) (k : ℤ) (θ : ℝ) (hn : 0 < n)
    (hd : (2 * (n : ℤ)) ∣ k) :
    ∑ i ∈ Finset.range n, cos (θ + (k : ℝ) * (i : ℝ) * π / (n : ℝ)) =
      (n : ℝ) * cos θ := by
  obtain ⟨t, ht⟩ := hd
  have hn0 : (n : ℝ) ≠ 0 := Nat.cast_ne_zero.2 hn.ne'
  have hpt : ∀ i : ℕ, cos (θ + (k : ℝ) * (i : ℝ) * π / (n : ℝ)) = cos θ := by
    intro i
    have harg : θ + (k : ℝ) * (i : ℝ) * π / (n : ℝ) = θ + ((t * i : ℤ) : ℝ) * (2 * π) := by
      have hkR : (k : ℝ) = 2 * (n : ℝ) * (t : ℝ) := by exact_mod_cast ht
      push_cast
      rw [hkR]
      field_simp
      ring
    rw [harg, Real.cos_add_int_mul_two_pi]
  rw [Finset.sum_congr rfl fun i _ => hpt i, Finset.sum_const, Finset.card_range,
    nsmul_eq_mul]

/-- Rewriting a harmonic of the shifted grid into the normal form of
`sum_cos_zero` / `sum_cos_full`. -/
theorem sum_cos_shift_eq (n : ℕ) (k : ℤ) (c s : ℝ) (hc : (k : ℝ) = -c) :
    ∑ i ∈ Finset.range n, cos (c * (s - (i : ℝ) * π / (n : ℝ))) =
      ∑ i ∈ Finset.range n, cos (c * s + (k : ℝ) * (i : ℝ) * π / (n : ℝ)) :=
  Finset.sum_congr rfl fun i _ => by
    rw [show c * (s - (i : ℝ) * π / (n : ℝ)) =
        c * s + (k : ℝ) * (i : ℝ) * π / (n : ℝ) by rw [hc]; ring]

/-- Splitting the sum of sixth-power cosines over the shifted grid into its
harmonics. -/
theorem sum_cos6_split (n : ℕ) (s : ℝ) :
    ∑ i ∈ Finset.range n, cos (s - (i : ℝ) * π / (n : ℝ)) ^ 6 =
      (n : ℝ) * (10 / 32) +
        (15 / 32) * (∑ i ∈ Finset.range n, cos (2 * (s - (i : ℝ) * π / (n : ℝ)))) +
        (6 / 32) * (∑ i ∈ Finset.range n, cos (4 * (s - (i : ℝ) * π / (n : ℝ)))) +
        (1 / 32) * (∑ i ∈ Finset.range n, cos (6 * (s - (i : ℝ) * π / (n : ℝ)))) := by
  have h : ∀ i ∈ Finset.range n, cos (s - (i : ℝ) * π / (n : ℝ)) ^ 6 =
      10 / 32 + (15 / 32) * cos (2 * (s - (i : ℝ) * π / (n : ℝ))) +
        (6 / 32) * cos (4 * (s - (i : ℝ) * π / (n : ℝ))) +
        (1 / 32) * cos (6 * (s - (i : ℝ) * π / (n : ℝ))) :=
    fun i _ => cos6_expand _
  rw [Finset.sum_congr rfl h, Finset.sum_add_distrib, Finset.sum_add_distrib,
    Finset.sum_add_distrib, ← Finset.mul_sum, ← Finset.mul_sum, ← Finset.mul_sum,
    Finset.sum_const, Finset.card_range, nsmul_eq_mul]

/-- For `4 ≤ n` channels every harmonic cancels: the channel sum is exactly
flat. -/
theorem sum_cos6_flat (n : ℕ) (hn : 4 ≤ n) (s : ℝ) :
    ∑ i ∈ Finset.range n, cos (s - (i : ℝ) * π / (n : ℝ)) ^ 6 =
      (n : ℝ) * (10 / 32) := by
  have hn0 : 0 < n := by omega
  have hn8 : (8 : ℤ) ≤ 2 * (n : ℤ) := by
    have : (4 : ℤ) ≤ (n : ℤ) := by exact_mod_cast hn
    omega
  have hd2 : ¬ ((2 * (n : ℤ)) ∣ (-2 : ℤ)) := fun h => by
    have := Int.le_of_dvd (by norm_num) (dvd_neg.1 h)
    omega
  have hd4 : ¬ ((2 * (n : ℤ)) ∣ (-4 : ℤ)) := fun h => by
    have := Int.le_of_dvd (by norm_num) (dvd_neg.1 h)
    omega
  have hd6 : ¬ ((2 * (n : ℤ)) ∣ (-6 : ℤ)) := fun h => by
    have := Int.le_of_dvd (by norm_num) (dvd_neg.1 h)
    omega
  rw [sum_cos6_split n s,
    sum_cos_shift_eq n (-2) 2 s (by norm_num),
    sum_cos_shift_eq n (-4) 4 s (by norm_num),
    sum_cos_shift_eq n (-6) 6 s (by norm_num),
    sum_cos_zero n (-2) (2 * s) hn0 ⟨-1, by norm_num⟩ hd2,
    sum_cos_zero n (-4) (4 * s) hn0 ⟨-2, by norm_num⟩ hd4,
    sum_cos_zero n (-6) (6 * s) hn0 ⟨-3, by norm_num⟩ hd6]
  ring

/-- For three channels only the sixth harmonic survives. -/
theorem sum_cos6_three (s : ℝ) :
    ∑ i ∈ Finset.range 3, cos (s - (i : ℝ) * π / ((3 : ℕ) : ℝ)) ^ 6 =
      30 / 32 + (3 / 32) * cos (6 * s) := by
  have hd2 : ¬ ((2 * ((3 : ℕ) : ℤ)) ∣ (-2 : ℤ)) := by
    rintro ⟨c, hc⟩; omega
  have hd4 : ¬ ((2 * ((3 : ℕ) : ℤ)) ∣ (-4 : ℤ)) := by
    rintro ⟨c, hc⟩; omega
  have hd6 : (2 * ((3 : ℕ) : ℤ)) ∣ (-6 : ℤ) := ⟨-1, by norm_num⟩
  rw [sum_cos6_split 3 s,
    sum_cos_shift_eq 3 (-2) 2 s (by norm_num),
    sum_cos_shift_eq 3 (-4) 4 s (by norm_num),
    sum_cos_shift_eq 3 (-6) 6 s (by norm_num),
    sum_cos_zero 3 (-2) (2 * s) (by norm_num) ⟨-1, by norm_num⟩ hd2,
    sum_cos_zero 3 (-4) (4 * s) (by norm_num) ⟨-2, by norm_num⟩ hd4,
    sum_cos_full 3 (-6) (6 * s) (by norm_num) hd6]
  push_cast
  ring

/-- For two channels the fourth harmonic survives. -/
theorem sum_cos6_two (s : ℝ) :
    ∑ i ∈ Finset.range 2, cos (s - (i : ℝ) * π / ((2 : ℕ) : ℝ)) ^ 6 =
      5 / 8 + (3 / 8) * cos (4 * s) := by
  have hd2 : ¬ ((2 * ((2 : ℕ) : ℤ)) ∣ (-2 : ℤ)) := by
    rintro ⟨c, hc⟩; omega
  have hd4 : (2 * ((2 : ℕ) : ℤ)) ∣ (-4 : ℤ) := ⟨-1, by norm_num⟩
  have hd6 : ¬ ((2 * ((2 : ℕ) : ℤ)) ∣ (-6 : ℤ)) := by
    rintro ⟨c, hc⟩; omega
  rw [sum_cos6_split 2 s,
    sum_cos_shift_eq 2 (-2) 2 s (by norm_num),
    sum_cos_shift_eq 2 (-4) 4 s (by norm_num),
    sum_cos_shift_eq 2 (-6) 6 s (by norm_num),
    sum_cos_zero 2 (-2) (2 * s) (by norm_num) ⟨-1, by norm_num⟩ hd2,
    sum_cos_full 2 (-4) (4 * s) (by norm_num) hd4,
    sum_cos_zero 2 (-6) (6 * s) (by norm_num) ⟨-3, by norm_num⟩ hd6]
  push_cast
  ring

/-! ### The channel construction in closed form -/

theorem sampleGrid_eq (j : Fin channel_density) :
    sampleGrid j = (j : ℝ) * π / 179 := by
  unfold sampleGrid linspace
  push_cast
  ring

theorem channelDomain_eq (p : Params) (j : Fin channel_density) :
    channelDomain p j =
      p.range_start + (j : ℝ) * ((p.range_stop - p.range_start) / 179) := by
  unfold channelDomain linspace
  push_cast
  ring

theorem nch_toNat_cast (p : Params) (hn : 2 ≤ p.n_channels) :
    ((p.n_channels.toNat : ℕ) : ℝ) = (p.n_channels : ℝ) := by
  have hZ : (p.n_channels.toNat : ℤ) = p.n_channels := Int.toNat_of_nonneg (by omega)
  exact_mod_cast hZ

/-- For `2 ≤ n_channels` the i-th shift equals `i * π / n_channels`. -/
theorem shifts_eq (p : Params) (hn : 2 ≤ p.n_channels) (i : Fin p.n_channels.toNat) :
    shifts p i = (i : ℝ) * π / ((p.n_channels.toNat : ℕ) : ℝ) := by
  unfold shifts linspace
  rw [nch_toNat_cast p hn]
  have h2 : (2 : ℝ) ≤ (p.n_channels : ℝ) := by exact_mod_cast hn
  have h0 : (p.n_channels : ℝ) ≠ 0 := by linarith
  have h1 : (p.n_channels : ℝ) - 1 ≠ 0 := by
    intro h
    have : (p.n_channels : ℝ) = 1 := by linarith
    linarith
  field_simp
  ring

theorem chSum_eq (p : Params) (hn : 2 ≤ p.n_channels) (j : Fin channel_density) :
    chSum p j = ∑ i ∈ Finset.range p.n_channels.toNat,
      cos (sampleGrid j - (i : ℝ) * π / ((p.n_channels.toNat : ℕ) : ℝ)) ^ 6 := by
  unfold chSum
  rw [show (∑ i, channels p i j) = ∑ i : Fin p.n_channels.toNat,
        cos (sampleGrid j - ((i : ℕ) : ℝ) * π / ((p.n_channels.toNat : ℕ) : ℝ)) ^ 6 by
      refine Finset.sum_congr rfl fun i _ => ?_
      simp only [channels, Matrix.of_apply, channel_exp]
      rw [shifts_eq p hn i]]
  exact Fin.sum_univ_eq_sum_range
    (fun t : ℕ => cos (sampleGrid j - (t : ℝ) * π / ((p.n_channels.toNat : ℕ) : ℝ)) ^ 6)
    p.n_channels.toNat

/-- For at least four channels the per-sample channel sum is constant. -/
theorem chSum_flat (p : Params) (hn : 4 ≤ p.n_channels) (j : Fin channel_density) :
    chSum p j = (p.n_channels : ℝ) * (10 / 32) := by
  rw [chSum_eq p (by omega) j,
    sum_cos6_flat p.n_channels.toNat (by omega) (sampleGrid j),
    nch_toNat_cast p (by omega)]

/-- For three channels the per-sample channel sum carries a small sixth
harmonic. -/
theorem chSum_three (p : Params) (h3 : p.n_channels = 3) (j : Fin channel_density) :
    chSum p j = 30 / 32 + (3 / 32) * cos (6 * sampleGrid j) := by
  rw [chSum_eq p (by omega) j, show p.n_channels.toNat = 3 by omega]
  exact sum_cos6_three (sampleGrid j)

/-- For two channels the per-sample channel sum carries a large fourth
harmonic. -/
theorem chSum_two (p : Params) (h2 : p.n_channels = 2) (j : Fin channel_density) :
    chSum p j = 5 / 8 + (3 / 8) * cos (4 * sampleGrid j) := by
  rw [chSum_eq p (by omega) j, show p.n_channels.toNat = 2 by omega]
  exact sum_cos6_two (sampleGrid j)

/-! ### Outcomes of the coverage check -/

/-- With at least four channels the channel sum is exactly flat, so the
coverage range is zero. -/
theorem chSumRange_flat (p : Params) (hn : 4 ≤ p.n_channels) : chSumRange p = 0 := by
  unfold chSumRange
  obtain ⟨j0⟩ : Nonempty (Fin channel_density) := inferInstance
  have hsup : Finset.univ.sup' Finset.univ_nonempty (chSum p) =
      (p.n_channels : ℝ) * (10 / 32) := by
    apply le_antisymm
    · exact Finset.sup'_le _ _ fun j _ => le_of_eq (chSum_flat p hn j)
    · have h0 := Finset.le_sup' (chSum p) (Finset.mem_univ j0)
      rw [chSum_flat p hn j0] at h0
      exact h0
  have hinf : Finset.univ.inf' Finset.univ_nonempty (chSum p) =
      (p.n_channels : ℝ) * (10 / 32) := by
    apply le_antisymm
    · have h0 := Finset.inf'_le (chSum p) (Finset.mem_univ j0)
      rw [chSum_flat p hn j0] at h0
      exact h0
    · exact Finset.le_inf' _ _ fun j _ => le_of_eq (chSum_flat p hn j).symm
  rw [hsup, hinf, sub_self]

/-- With at least four channels and a non-decreasing range the coverage
check passes. -/
theorem defineChannels_ok_flat (p : Params) (hn : 4 ≤ p.n_channels)
    (hr : p.range_start ≤ p.range_stop) :
    defineChannels p = .ok (channels p, channelDomain p) := by
  unfold defineChannels
  rw [if_neg]
  rw [chSumRange_flat p hn]
  unfold deg2rad
  push_neg
  have hπ : 0 < π := Real.pi_pos
  have h1 : 0 ≤ (p.range_stop - p.range_start) * π / 180 := by
    apply div_nonneg _ (by norm_num)
    apply mul_nonneg (by linarith) (le_of_lt hπ)
  nlinarith

/-- With three channels (default range 0-180) the coverage range is at most
`6/32`, under the `π/10` threshold: the check passes. -/
theorem defineChannels_ok_three :
    defineChannels ⟨3, 0, 180⟩ =
      .ok (channels ⟨3, 0, 180⟩, channelDomain ⟨3, 0, 180⟩) := by
  unfold defineChannels
  rw [if_neg]
  intro hgt
  have hub : chSumRange ⟨3, 0, 180⟩ ≤ 6 / 32 := by
    unfold chSumRange
    have h1 : Finset.univ.sup' Finset.univ_nonempty (chSum ⟨3, 0, 180⟩) ≤ 33 / 32 :=
      Finset.sup'_le _ _ fun j _ => by
        rw [chSum_three ⟨3, 0, 180⟩ rfl j]
        have := Real.cos_le_one (6 * sampleGrid j)
        linarith
    have h2 : (27 : ℝ) / 32 ≤ Finset.univ.inf' Finset.univ_nonempty (chSum ⟨3, 0, 180⟩) :=
      Finset.le_inf' _ _ fun j _ => by
        rw [chSum_three ⟨3, 0, 180⟩ rfl j]
        have := Real.neg_one_le_cos (6 * sampleGrid j)
        linarith
    linarith
  have hth : deg2rad ((⟨3, 0, 180⟩ : Params).range_stop -
      (⟨3, 0, 180⟩ : Params).range_start) * 0.1 = π / 10 := by
    show (180 - 0 : ℝ) * π / 180 * 0.1 = π / 10
    ring
  rw [hth] at hgt
  have hπ : 3 < π := Real.pi_gt_three
  linarith

/-- With two channels (default range 0-180) the coverage range exceeds the
`π/10` threshold: `_define_channels` raises. -/
theorem defineChannels_two_err :
    defineChannels ⟨2, 0, 180⟩ = .error ("Insufficient channel coverage.") := by
  unfold defineChannels
  rw [if_pos]
  have hth : deg2rad ((⟨2, 0, 180⟩ : Params).range_stop -
      (⟨2, 0, 180⟩ : Params).range_start) * 0.1 = π / 10 := by
    show (180 - 0 : ℝ) * π / 180 * 0.1 = π / 10
    ring
  rw [hth]
  have ha : chSum ⟨2, 0, 180⟩ ⟨0, by norm_num⟩ = 1 := by
    rw [chSum_two ⟨2, 0, 180⟩ rfl ⟨0, by norm_num⟩, sampleGrid_eq]
    norm_num
  have hb : chSum ⟨2, 0, 180⟩ ⟨45, by norm_num⟩ = 5 / 8 - (3 / 8) * cos (π / 179) := by
    rw [chSum_two ⟨2, 0, 180⟩ rfl ⟨45, by norm_num⟩, sampleGrid_eq]
    rw [show 4 * ((((⟨45, by norm_num⟩ : Fin channel_density) : ℕ) : ℝ) * π / 179) =
        π + π / 179 by push_cast; ring]
    rw [Real.cos_add, Real.cos_pi, Real.sin_pi]
    ring
  have hsup : (1 : ℝ) ≤ Finset.univ.sup' Finset.univ_nonempty (chSum ⟨2, 0, 180⟩) := by
    have h0 := Finset.le_sup' (chSum ⟨2, 0, 180⟩)
      (Finset.mem_univ (⟨0, by norm_num⟩ : Fin channel_density))
    rw [ha] at h0
    exact h0
  have hinf : Finset.univ.inf' Finset.univ_nonempty (chSum ⟨2, 0, 180⟩) ≤
      5 / 8 - (3 / 8) * cos (π / 179) := by
    have h0 := Finset.inf'_le (chSum ⟨2, 0, 180⟩)
      (Finset.mem_univ (⟨45, by norm_num⟩ : Fin channel_density))
    rw [hb] at h0
    exact h0
  have hcos : 1 - (π / 179) ^ 2 / 2 ≤ cos (π / 179) := Real.one_sub_sq_div_two_le_cos
  have hπu : π < 3.15 := Real.pi_lt_d2
  have hπl : 0 < π := Real.pi_pos
  unfold chSumRange
  have hsq : (π / 179) ^ 2 ≤ 0.00031 := by
    have h1 : π / 179 ≤ 3.15 / 179 := by linarith
    have h2 : (0 : ℝ) ≤ π / 179 := by positivity
    nlinarith
  linarith

/-! ### Reduction helpers for fit -/

/-- The validation prefix succeeds on a tall 2-D shape with matching label
length and at least two channels. -/
theorem fitValidate_none (nch : ℤ) (tr un m : ℕ) (h2 : 2 ≤ nch)
    (htall : un < tr) (hm : tr = m) : fitValidate nch [tr, un] m = none := by
  unfold fitValidate
  rw [if_neg (show ¬nch < 2 by omega),
    if_neg (show ¬([tr, un].length < 2) by simp),
    if_neg (show ¬([tr, un].getD 0 0 ≤ [tr, un].getD 1 0) from by
      simpa [List.getD] using htall.not_le),
    if_neg (show ¬([tr, un].getD 0 0 ≠ m) from by
      simpa [List.getD] using hm)]

/-- When validation and the coverage check pass, `fit` returns the fitted
state built from the basis, the domain, and the transposed least-squares
solution for `F`. -/
theorem fit_ok (p : Params) {tr un : ℕ} (X : Matrix (Fin tr) (Fin un) ℝ)
    (y : Fin tr → ℝ) (hv : fitValidate p.n_channels [tr, un] tr = none)
    (hC : defineChannels p = .ok (channels p, channelDomain p)) :
    fit p X y = .ok ⟨channels p, channelDomain p,
      (lstsq (buildF (channels p) (channelDomain p) y) X)ᵀ⟩ := by
  unfold fit
  rw [hv, hC]
  dsimp only
  rw [dif_pos rfl]
  exact rfl

/-! ### Claim C1: coverage check for the default configuration -/

/-- Claim C1 counterexample: with the default configuration and
`n_channels = 2` the coverage check fails — `_define_channels` raises
`"Insufficient channel coverage."`, and so does `fit` on otherwise valid
inputs — refuting "does not raise for any n_channels ≥ 2". -/
theorem claim_C1_counterexample :
    defineChannels ⟨2, 0, 180⟩ = .error ("Insufficient channel coverage.") ∧
    fit ⟨2, 0, 180⟩ (0 : Matrix (Fin 2) (Fin 1) ℝ) (fun _ : Fin 2 => (0 : ℝ)) =
      .error ("Insufficient channel coverage.") := by
  refine ⟨defineChannels_two_err, ?_⟩
  unfold fit
  rw [show fitValidate (⟨2, 0, 180⟩ : Params).n_channels [2, 1] 2 = none from by decide,
    defineChannels_two_err]

/-- Claim C1 (amended): for every integer `n_channels ≥ 3`, building the
channel basis with the default configuration (range 0-180, 180 samples)
succeeds — the coverage range does not exceed 10% of the domain range in
radians — so `_define_channels` (and `fit` on otherwise valid inputs) does
not raise the coverage error; for `n_channels = 2` it does raise. -/
theorem claim_C1_amended (n : ℤ) (hn : 3 ≤ n) :
    defineChannels ⟨n, 0, 180⟩ =
      .ok (channels ⟨n, 0, 180⟩, channelDomain ⟨n, 0, 180⟩) ∧
    ∀ (tr un : ℕ) (X : Matrix (Fin tr) (Fin un) ℝ) (y : Fin tr → ℝ), un < tr →
      fit ⟨n, 0, 180⟩ X y = .ok ⟨channels ⟨n, 0, 180⟩, channelDomain ⟨n, 0, 180⟩,
        (lstsq (buildF (channels ⟨n, 0, 180⟩) (channelDomain ⟨n, 0, 180⟩) y) X)ᵀ⟩ := by
  have hdc : defineChannels ⟨n, 0, 180⟩ =
      .ok (channels ⟨n, 0, 180⟩, channelDomain ⟨n, 0, 180⟩) := by
    rcases eq_or_lt_of_le hn with h | h
    · exact h ▸ defineChannels_ok_three
    · exact defineChannels_ok_flat ⟨n, 0, 180⟩ (by show (4 : ℤ) ≤ n; omega) (by norm_num)
  exact ⟨hdc, fun tr un X y htall =>
    fit_ok ⟨n, 0, 180⟩ X y (fitValidate_none n tr un tr (by omega) htall rfl) hdc⟩

/-- Witness for the amended claim C1 at `n_channels = 3` with a concrete
valid fit input. -/
theorem claim_C1_witness :
    defineChannels ⟨3, 0, 180⟩ =
      .ok (channels ⟨3, 0, 180⟩, channelDomain ⟨3, 0, 180⟩) ∧
    fit ⟨3, 0, 180⟩ (0 : Matrix (Fin 2) (Fin 1) ℝ) (fun _ : Fin 2 => (90 : ℝ)) =
      .ok ⟨channels ⟨3, 0, 180⟩, channelDomain ⟨3, 0, 180⟩,
        (lstsq (buildF (channels ⟨3, 0, 180⟩) (channelDomain ⟨3, 0, 180⟩)
          (fun _ : Fin 2 => (90 : ℝ))) (0 : Matrix (Fin 2) (Fin 1) ℝ))ᵀ⟩ :=
  ⟨(claim_C1_amended 3 (by decide)).1,
    (claim_C1_amended 3 (by decide)).2 2 1 0 (fun _ => 90) (by decide)⟩

/-! ### Claim C5: the closed form of the basis -/

/-- Claim C5: for every `n_channels ≥ 2` passing the coverage check,
`_define_channels` returns `C` with
`C[i][j] = cos(s_j - shift_i)^6` where `s_j = j * π / 179` runs linearly
from 0 to π over the 180 samples and
`shift_i = i * (π - π/n_channels) / (n_channels - 1)`, and returns `C_D` as
the 180 evenly spaced values spanning `[range_start, range_stop]`; the
channel density is 180 regardless of `n_channels`. -/
theorem claim_C5 (p : Params) (hn : 2 ≤ p.n_channels)
    (C : Matrix (Fin p.n_channels.toNat) (Fin channel_density) ℝ)
    (C_D : Fin channel_density → ℝ)
    (hok : defineChannels p = .ok (C, C_D)) :
    (∀ i j, C i j =
        cos ((j : ℝ) * π / 179 -
          (i : ℝ) * ((π - π / (p.n_channels : ℝ)) / ((p.n_channels : ℝ) - 1))) ^ 6) ∧
    (∀ j, C_D j = p.range_start + (j : ℝ) * ((p.range_stop - p.range_start) / 179)) ∧
    channel_density = 180 := by
  have hCC : channels p = C ∧ channelDomain p = C_D := by
    unfold defineChannels at hok
    by_cases hc : chSumRange p > deg2rad (p.range_stop - p.range_start) * 0.1
    · rw [if_pos hc] at hok
      exact absurd hok (by simp)
    · rw [if_neg hc] at hok
      injection hok with h
      exact ⟨congrArg Prod.fst h, congrArg Prod.snd h⟩
  obtain ⟨hC, hD⟩ := hCC
  refine ⟨fun i j => ?_, fun j => ?_, rfl⟩
  · rw [← hC]
    simp only [channels, Matrix.of_apply, channel_exp]
    rw [sampleGrid_eq j]
    congr 2
    unfold shifts linspace
    rw [nch_toNat_cast p hn]
    ring
  · rw [← hD, channelDomain_eq]

/-- Witness for claim C5 at `n_channels = 3`, default range, concrete
indices. -/
theorem claim_C5_witness :
    channels ⟨3, 0, 180⟩ ⟨0, by norm_num⟩ ⟨7, by norm_num⟩ =
      cos (((7 : ℕ) : ℝ) * π / 179 -
        ((0 : ℕ) : ℝ) * ((π - π / ((3 : ℤ) : ℝ)) / (((3 : ℤ) : ℝ) - 1))) ^ 6 ∧
    channelDomain ⟨3, 0, 180⟩ ⟨7, by norm_num⟩ =
      (0 : ℝ) + ((7 : ℕ) : ℝ) * ((180 - 0) / 179) :=
  ⟨(claim_C5 ⟨3, 0, 180⟩ (by decide) (channels ⟨3, 0, 180⟩) (channelDomain ⟨3, 0, 180⟩)
      defineChannels_ok_three).1 ⟨0, by norm_num⟩ ⟨7, by norm_num⟩,
    (claim_C5 ⟨3, 0, 180⟩ (by decide) (channels ⟨3, 0, 180⟩) (channelDomain ⟨3, 0, 180⟩)
      defineChannels_ok_three).2.1 ⟨7, by norm_num⟩⟩

/-- Inversion of a successful `_define_channels` run. -/
theorem defineChannels_ok_inv (p : Params)
    {C : Matrix (Fin p.n_channels.toNat) (Fin channel_density) ℝ}
    {CD : Fin channel_density → ℝ} (hok : defineChannels p = .ok (C, CD)) :
    C = channels p ∧ CD = channelDomain p := by
  unfold defineChannels at hok
  by_cases hc : chSumRange p > deg2rad (p.range_stop - p.range_start) * 0.1
  · rw [if_pos hc] at hok
    exact absurd hok (by simp)
  · rw [if_neg hc] at hok
    injection hok with h
    exact ⟨(congrArg Prod.fst h).symm, (congrArg Prod.snd h).symm⟩

/-- Inversion of a successful `fit` run: the stored basis and domain are the
ones built by `_define_channels`. -/
theorem fit_ok_inv (p : Params) {tr un m : ℕ} {X : Matrix (Fin tr) (Fin un) ℝ}
    {y : Fin m → ℝ} {M : Fitted p.n_channels.toNat un}
    (hfit : fit p X y = .ok M) : M.C = channels p ∧ M.C_D = channelDomain p := by
  unfold fit at hfit
  cases hval : fitValidate p.n_channels [tr, un] m with
  | some e =>
    rw [hval] at hfit
    exact absurd hfit (by simp)
  | none =>
    rw [hval] at hfit
    cases hdc : defineChannels p with
    | error e =>
      rw [hdc] at hfit
      exact absurd hfit (by simp)
    | ok pr =>
      obtain ⟨C, CD⟩ := pr
      obtain ⟨hC, hCD⟩ := defineChannels_ok_inv p hdc
      rw [hdc] at hfit
      dsimp only at hfit
      by_cases h : m = tr
      · rw [dif_pos h] at hfit
        injection hfit with h2
        rw [← h2]
        exact ⟨hC, hCD⟩
      · rw [dif_neg h] at hfit
        exact absurd hfit (by simp)

/-- Least squares against a zero target gives zero coefficients. -/
theorem lstsq_zero_right {a b c : ℕ} (A : Matrix (Fin a) (Fin b) ℝ) :
    lstsq A (0 : Matrix (Fin a) (Fin c) ℝ) = 0 := by
  unfold lstsq
  rw [Matrix.mul_zero]

/-- Least squares with a zero design matrix gives zero coefficients. -/
theorem lstsq_zero_left {a b c : ℕ} (B : Matrix (Fin a) (Fin c) ℝ) :
    lstsq (0 : Matrix (Fin a) (Fin b) ℝ) B = 0 := by
  unfold lstsq
  rw [Matrix.transpose_zero, Matrix.mul_zero, Matrix.zero_mul]

/-- A model whose stored coefficients are zero decodes every trial to
`C_D_[0]` (zero responses, first arg-max). -/
theorem predictVec_W_zero {nc un tr : ℕ} (M : Fitted nc un) (hW : M.W = 0)
    (X : Matrix (Fin tr) (Fin un) ℝ) :
    predictVec M X = fun _ => M.C_D 0 := by
  have hcr : channelResponses M X = 0 := by
    unfold channelResponses
    rw [hW, lstsq_zero_left, Matrix.transpose_zero]
  have hpr : predResponse M X = 0 := by
    unfold predResponse
    rw [hcr, Matrix.zero_mul]
  funext i
  unfold predictVec
  rw [hpr]
  have h0 : (fun j => (0 : Matrix (Fin tr) (Fin channel_density) ℝ) i j) =
      fun _ : Fin channel_density => (0 : ℝ) := rfl
  rw [h0, argmaxIdx_const]

/-- The degenerate configuration `n_channels = 4`, `range_start = range_stop
= 0` with zero data: `fit` succeeds (exactly flat coverage, zero threshold)
and stores zero coefficients. -/
theorem fit_deg_ok :
    fit ⟨4, 0, 0⟩ (0 : Matrix (Fin 2) (Fin 1) ℝ) (fun _ : Fin 2 => (0 : ℝ)) =
      .ok ⟨channels ⟨4, 0, 0⟩, channelDomain ⟨4, 0, 0⟩, 0⟩ := by
  have h := fit_ok ⟨4, 0, 0⟩ (0 : Matrix (Fin 2) (Fin 1) ℝ) (fun _ : Fin 2 => (0 : ℝ))
    (by decide) (defineChannels_ok_flat ⟨4, 0, 0⟩ (le_refl 4) (le_refl 0))
  rw [lstsq_zero_right, Matrix.transpose_zero] at h
  exact h

/-! ### Claim C4: predictions are members of the stored channel domain -/

/-- Claim C4: for every fitted model and every (typed 2-D) predict input
with `n_trials > n_units`, `predict` succeeds and returns a vector each of
whose entries is an element of the stored channel domain — one of the 180
evenly spaced values from `range_start` to `range_stop`. -/
theorem claim_C4 (p : Params) {tr un m tr' : ℕ} (X : Matrix (Fin tr) (Fin un) ℝ)
    (y : Fin m → ℝ) (M : Fitted p.n_channels.toNat un)
    (hfit : fit p X y = .ok M) (X' : Matrix (Fin tr') (Fin un) ℝ)
    (htall : un < tr') :
    predict M X' = .ok (predictVec M X') ∧
    ∀ i, ∃ j : Fin channel_density, predictVec M X' i = channelDomain p j := by
  obtain ⟨-, hCD⟩ := fit_ok_inv p hfit
  constructor
  · unfold predict
    rw [if_neg (not_le.2 htall)]
  · intro i
    refine ⟨argmaxIdx fun j => predResponse M X' i j, ?_⟩
    unfold predictVec
    rw [hCD]

/-- Witness for claim C4 on the degenerate configuration. -/
theorem claim_C4_witness :
    predict (⟨channels ⟨4, 0, 0⟩, channelDomain ⟨4, 0, 0⟩, 0⟩ : Fitted 4 1)
        (0 : Matrix (Fin 2) (Fin 1) ℝ) =
      .ok (predictVec (⟨channels ⟨4, 0, 0⟩, channelDomain ⟨4, 0, 0⟩, 0⟩ : Fitted 4 1)
        (0 : Matrix (Fin 2) (Fin 1) ℝ)) ∧
    ∀ i, ∃ j : Fin channel_density,
      predictVec (⟨channels ⟨4, 0, 0⟩, channelDomain ⟨4, 0, 0⟩, 0⟩ : Fitted 4 1)
        (0 : Matrix (Fin 2) (Fin 1) ℝ) i = channelDomain ⟨4, 0, 0⟩ j :=
  claim_C4 ⟨4, 0, 0⟩ (0 : Matrix (Fin 2) (Fin 1) ℝ) (fun _ : Fin 2 => (0 : ℝ)) _
    fit_deg_ok (0 : Matrix (Fin 2) (Fin 1) ℝ) (by norm_num)

/-! ### Claim C9: unguarded division by zero in score -/

/-- Claim C9: `score` divides by `Σ (y - mean y)²` with no guard; for a
constant ground-truth vector that denominator is exactly zero, yet `score`
still returns a value (no error is raised), computing `1 - u / 0`. -/
theorem claim_C9 {nc un tr : ℕ} (M : Fitted nc un) (X : Matrix (Fin tr) (Fin un) ℝ)
    (y : Fin tr → ℝ) (c : ℝ) (hy : ∀ i, y i = c) (htall : un < tr) :
    (∑ i, (y i - npMean y) ^ 2) = 0 ∧
    score M X y = .ok (1 - (∑ i, (y i - predictVec M X i) ^ 2) /
      (∑ i, (y i - npMean y) ^ 2)) := by
  have htr : (tr : ℝ) ≠ 0 := Nat.cast_ne_zero.2 (by omega)
  have hmean : npMean y = c := by
    unfold npMean
    rw [Finset.sum_congr rfl fun i _ => hy i, Finset.sum_const, Finset.card_univ,
      Fintype.card_fin, nsmul_eq_mul]
    field_simp
  have hden : (∑ i, (y i - npMean y) ^ 2) = 0 := by
    apply Finset.sum_eq_zero
    intro i _
    rw [hy i, hmean, sub_self]
    norm_num
  refine ⟨hden, ?_⟩
  unfold score predict
  rw [if_neg (not_le.2 htall)]
  rfl

/-- Witness for claim C9: a constant label vector on the degenerate model. -/
theorem claim_C9_witness :
    (∑ _i : Fin 2, ((5 : ℝ) - npMean (fun _ : Fin 2 => (5 : ℝ))) ^ 2) = 0 ∧
    score (⟨channels ⟨4, 0, 0⟩, channelDomain ⟨4, 0, 0⟩, 0⟩ : Fitted 4 1)
        (0 : Matrix (Fin 2) (Fin 1) ℝ) (fun _ : Fin 2 => (5 : ℝ)) =
      .ok (1 - (∑ i : Fin 2, ((5 : ℝ) -
          predictVec (⟨channels ⟨4, 0, 0⟩, channelDomain ⟨4, 0, 0⟩, 0⟩ : Fitted 4 1)
            (0 : Matrix (Fin 2) (Fin 1) ℝ) i) ^ 2) /
        (∑ _i : Fin 2, ((5 : ℝ) - npMean (fun _ : Fin 2 => (5 : ℝ))) ^ 2)) :=
  claim_C9 (⟨channels ⟨4, 0, 0⟩, channelDomain ⟨4, 0, 0⟩, 0⟩ : Fitted 4 1)
    (0 : Matrix (Fin 2) (Fin 1) ℝ) (fun _ : Fin 2 => (5 : ℝ)) 5 (fun _ => rfl)
    (by norm_num)

/-! ### Claim C6: the score statistic -/

/-- Claim C6 (amended): `score` computes `1 - Σ(y - pred)² / Σ(y - mean y)²`
with the prediction vector of `predict`; provided the denominator
`Σ(y - mean y)²` is nonzero (`y` not constant), perfect predictions give
exactly `1` and all-mean predictions give exactly `0`.  (When `y` is
constant the division by zero yields no well-defined value, see the
counterexample.) -/
theorem claim_C6_amended {nc un tr : ℕ} (M : Fitted nc un)
    (X : Matrix (Fin tr) (Fin un) ℝ) (y : Fin tr → ℝ) (htall : un < tr) :
    score M X y = .ok (1 - (∑ i, (y i - predictVec M X i) ^ 2) /
      (∑ i, (y i - npMean y) ^ 2)) ∧
    ((∀ i, predictVec M X i = y i) → (∑ i, (y i - npMean y) ^ 2) ≠ 0 →
      score M X y = .ok 1) ∧
    ((∀ i, predictVec M X i = npMean y) → (∑ i, (y i - npMean y) ^ 2) ≠ 0 →
      score M X y = .ok 0) := by
  have hform : score M X y = .ok (1 - (∑ i, (y i - predictVec M X i) ^ 2) /
      (∑ i, (y i - npMean y) ^ 2)) := by
    unfold score predict
    rw [if_neg (not_le.2 htall)]
    rfl
  refine ⟨hform, fun hperf hv => ?_, fun hmean hv => ?_⟩
  · rw [hform]
    have hu : (∑ i, (y i - predictVec M X i) ^ 2) = 0 :=
      Finset.sum_eq_zero fun i _ => by rw [hperf i, sub_self]; norm_num
    rw [hu, zero_div, sub_zero]
  · rw [hform]
    have hu : (∑ i, (y i - predictVec M X i) ^ 2) =
        (∑ i, (y i - npMean y) ^ 2) :=
      Finset.sum_congr rfl fun i _ => by rw [hmean i]
    rw [hu, div_self hv, sub_self]

/-! ### Claim C7: nearest-sample channel assignment with first-minimum ties -/

/-- Claim C7: during `fit`, trial i's channel-activation row is
`F[i, :] = C[:, k]` where `k` is the first minimiser of
`(y[i] - C_D[k])²` over the 180 domain samples: `k` attains the minimum
squared distance and is below or equal to every other index attaining it,
so equidistant feature values deterministically select the lower-index
sample. -/
theorem claim_C7 (p : Params) {tr un : ℕ} (X : Matrix (Fin tr) (Fin un) ℝ)
    (y : Fin tr → ℝ) (hv : fitValidate p.n_channels [tr, un] tr = none)
    (hC : defineChannels p = .ok (channels p, channelDomain p)) :
    fit p X y = .ok ⟨channels p, channelDomain p,
      (lstsq (buildF (channels p) (channelDomain p) y) X)ᵀ⟩ ∧
    ∀ i : Fin tr, ∃ k : Fin channel_density,
      (∀ ch, buildF (channels p) (channelDomain p) y i ch = channels p ch k) ∧
      (∀ j, (y i - channelDomain p k) ^ 2 ≤ (y i - channelDomain p j) ^ 2) ∧
      (∀ j, (y i - channelDomain p j) ^ 2 ≤ (y i - channelDomain p k) ^ 2 →
        k ≤ j) := by
  refine ⟨fit_ok p X y hv hC, fun i => ?_⟩
  set f : Fin channel_density → ℝ := fun j => (y i - channelDomain p j) ^ 2 with hf
  refine ⟨argminIdx f, fun ch => ?_, fun j => argminIdx_is_min f j,
    fun j hj => argminIdx_le f j fun j' => le_trans hj (argminIdx_is_min f j')⟩
  simp only [buildF, Matrix.of_apply, hf]

/-- Witness for claim C7 on a concrete three-channel fit. -/
theorem claim_C7_witness :
    fit ⟨3, 0, 180⟩ (0 : Matrix (Fin 2) (Fin 1) ℝ) (fun _ : Fin 2 => (90 : ℝ)) =
      .ok ⟨channels ⟨3, 0, 180⟩, channelDomain ⟨3, 0, 180⟩,
        (lstsq (buildF (channels ⟨3, 0, 180⟩) (channelDomain ⟨3, 0, 180⟩)
          (fun _ : Fin 2 => (90 : ℝ))) (0 : Matrix (Fin 2) (Fin 1) ℝ))ᵀ⟩ ∧
    ∀ i : Fin 2, ∃ k : Fin channel_density,
      (∀ ch, buildF (channels ⟨3, 0, 180⟩) (channelDomain ⟨3, 0, 180⟩)
        (fun _ : Fin 2 => (90 : ℝ)) i ch = channels ⟨3, 0, 180⟩ ch k) ∧
      (∀ j, ((90 : ℝ) - channelDomain ⟨3, 0, 180⟩ k) ^ 2 ≤
        ((90 : ℝ) - channelDomain ⟨3, 0, 180⟩ j) ^ 2) ∧
      (∀ j, ((90 : ℝ) - channelDomain ⟨3, 0, 180⟩ j) ^ 2 ≤
        ((90 : ℝ) - channelDomain ⟨3, 0, 180⟩ k) ^ 2 → k ≤ j) :=
  claim_C7 ⟨3, 0, 180⟩ (0 : Matrix (Fin 2) (Fin 1) ℝ) (fun _ : Fin 2 => (90 : ℝ))
    (by decide) defineChannels_ok_three

/-! ### Claim C2: round-trip recovery -/

/-- Exact channel-response recovery: regressing the recovered weights onto
the noise-free transposed data returns the transposed activation matrix,
whenever `W * Wᵀ` is invertible. -/
theorem lstsq_responses {a b c : ℕ} (F : Matrix (Fin a) (Fin b) ℝ)
    (W : Matrix (Fin b) (Fin c) ℝ) (h : IsUnit ((W * Wᵀ).det)) :
    lstsq Wᵀ (F * W)ᵀ = Fᵀ := by
  unfold lstsq
  rw [Matrix.transpose_transpose, Matrix.transpose_mul,
    Matrix.mul_assoc ((W * Wᵀ)⁻¹) W (Wᵀ * Fᵀ), ← Matrix.mul_assoc W Wᵀ Fᵀ,
    ← Matrix.mul_assoc, Matrix.nonsing_inv_mul _ h, Matrix.one_mul]

/-- Product-to-sum for two equally spaced cosine sweeps with distinct even
speeds: the sum vanishes. -/
theorem sum_cosmul_ne (n : ℕ) (hn : 0 < n) (A B : ℝ) (p q : ℤ) (c d : ℝ)
    (hc : (p : ℝ) = c) (hd : (q : ℝ) = d) (hpe : Even p) (hqe : Even q)
    (h1 : ¬ ((2 * (n : ℤ)) ∣ (q - p))) (h2 : ¬ ((2 * (n : ℤ)) ∣ (p + q))) :
    ∑ i ∈ Finset.range n,
      cos (A - c * (i : ℝ) * π / (n : ℝ)) * cos (B - d * (i : ℝ) * π / (n : ℝ)) = 0 := by
  have key : ∀ x y : ℝ, cos x * cos y = (1 / 2) * cos (x - y) + (1 / 2) * cos (x + y) := by
    intro x y
    rw [Real.cos_sub, Real.cos_add]
    ring
  have hpt : ∀ i : ℕ,
      cos (A - c * (i : ℝ) * π / (n : ℝ)) * cos (B - d * (i : ℝ) * π / (n : ℝ)) =
        (1 / 2) * cos ((A - B) + ((q - p : ℤ) : ℝ) * (i : ℝ) * π / (n : ℝ)) +
        (1 / 2) * cos ((A + B) + ((-(p + q) : ℤ) : ℝ) * (i : ℝ) * π / (n : ℝ)) := by
    intro i
    rw [key,
      show (A - c * (i : ℝ) * π / (n : ℝ)) - (B - d * (i : ℝ) * π / (n : ℝ)) =
        (A - B) + ((q - p : ℤ) : ℝ) * (i : ℝ) * π / (n : ℝ) by
          rw [← hc, ← hd]; push_cast; ring,
      show (A - c * (i : ℝ) * π / (n : ℝ)) + (B - d * (i : ℝ) * π / (n : ℝ)) =
        (A + B) + ((-(p + q) : ℤ) : ℝ) * (i : ℝ) * π / (n : ℝ) by
          rw [← hc, ← hd]; push_cast; ring]
  rw [Finset.sum_congr rfl fun i _ => hpt i, Finset.sum_add_distrib,
    ← Finset.mul_sum, ← Finset.mul_sum,
    sum_cos_zero n (q - p) (A - B) hn (hqe.sub hpe) h1,
    sum_cos_zero n (-(p + q)) (A + B) hn ((hpe.add hqe).neg) (by rwa [dvd_neg]),
    mul_zero, add_zero]

/-- Product-to-sum for two equally spaced cosine sweeps with the same even
speed: only the difference term survives. -/
theorem sum_cosmul_eq (n : ℕ) (hn : 0 < n) (A B : ℝ) (p : ℤ) (c : ℝ)
    (hc : (p : ℝ) = c) (hpe : Even p) (h2 : ¬ ((2 * (n : ℤ)) ∣ (p + p))) :
    ∑ i ∈ Finset.range n,
      cos (A - c * (i : ℝ) * π / (n : ℝ)) * cos (B - c * (i : ℝ) * π / (n : ℝ)) =
      ((n : ℝ) / 2) * cos (A - B) := by
  have key : ∀ x y : ℝ, cos x * cos y = (1 / 2) * cos (x - y) + (1 / 2) * cos (x + y) := by
    intro x y
    rw [Real.cos_sub, Real.cos_add]
    ring
  have hpt : ∀ i : ℕ,
      cos (A - c * (i : ℝ) * π / (n : ℝ)) * cos (B - c * (i : ℝ) * π / (n : ℝ)) =
        (1 / 2) * cos (A - B) +
        (1 / 2) * cos ((A + B) + ((-(p + p) : ℤ) : ℝ) * (i : ℝ) * π / (n : ℝ)) := by
    intro i
    rw [key,
      show (A - c * (i : ℝ) * π / (n : ℝ)) - (B - c * (i : ℝ) * π / (n : ℝ)) = A - B by ring,
      show (A - c * (i : ℝ) * π / (n : ℝ)) + (B - c * (i : ℝ) * π / (n : ℝ)) =
        (A + B) + ((-(p + p) : ℤ) : ℝ) * (i : ℝ) * π / (n : ℝ) by
          rw [← hc]; push_cast; ring]
  rw [Finset.sum_congr rfl fun i _ => hpt i, Finset.sum_add_distrib,
    ← Finset.mul_sum, ← Finset.mul_sum,
    sum_cos_zero n (-(p + p)) (A + B) hn ((hpe.add hpe).neg) (by rwa [dvd_neg]),
    mul_zero, add_zero, Finset.sum_const, Finset.card_range, nsmul_eq_mul]
  ring

/-- The oscillating part of `cos^6` on the shifted grid. -/
noncomputable def osc (n : ℕ) (x : ℝ) (i : ℕ) : ℝ :=
  (15 / 32) * cos (2 * x - 2 * (i : ℝ) * π / (n : ℝ)) +
    (6 / 32) * cos (4 * x - 4 * (i : ℝ) * π / (n : ℝ)) +
    (1 / 32) * cos (6 * x - 6 * (i : ℝ) * π / (n : ℝ))

theorem cos6_eq_osc (n : ℕ) (x : ℝ) (i : ℕ) :
    cos (x - (i : ℝ) * π / (n : ℝ)) ^ 6 = 10 / 32 + osc n x i := by
  rw [cos6_expand (x - (i : ℝ) * π / (n : ℝ))]
  unfold osc
  rw [show 2 * (x - (i : ℝ) * π / (n : ℝ)) = 2 * x - 2 * (i : ℝ) * π / (n : ℝ) by ring,
    show 4 * (x - (i : ℝ) * π / (n : ℝ)) = 4 * x - 4 * (i : ℝ) * π / (n : ℝ) by ring,
    show 6 * (x - (i : ℝ) * π / (n : ℝ)) = 6 * x - 6 * (i : ℝ) * π / (n : ℝ) by ring]
  ring

/-- Non-divisibility of small nonzero integers by `2 * n` for `7 ≤ n`. -/
theorem not_dvd_small (n : ℕ) (hn : 7 ≤ n) (k : ℤ) (hk0 : k ≠ 0)
    (hkl : -13 ≤ k) (hku : k ≤ 13) : ¬ ((2 * (n : ℤ)) ∣ k) := by
  intro hdvd
  have h14 : (14 : ℤ) ≤ 2 * (n : ℤ) := by
    have : (7 : ℤ) ≤ (n : ℤ) := by exact_mod_cast hn
    omega
  rcases lt_trichotomy k 0 with h | h | h
  · have := Int.le_of_dvd (by omega) ((dvd_neg).2 hdvd)
    omega
  · exact hk0 h
  · have := Int.le_of_dvd h hdvd
    omega

/-- A single linear-speed cosine sweep with small nonzero even speed sums
to zero for `7 ≤ n`. -/
theorem sum_cos_lin_zero (n : ℕ) (hn : 7 ≤ n) (θ : ℝ) (k : ℤ) (c : ℝ)
    (hc : (k : ℝ) = c) (hke : Even k) (hk0 : k ≠ 0) (hkl : -13 ≤ k) (hku : k ≤ 13) :
    ∑ i ∈ Finset.range n, cos (θ - c * (i : ℝ) * π / (n : ℝ)) = 0 := by
  have h := sum_cos_zero n (-k) θ (by omega) hke.neg
    (by rw [dvd_neg]; exact not_dvd_small n hn k hk0 hkl hku)
  rw [Finset.sum_congr rfl fun i _ => by
    rw [show θ - c * (i : ℝ) * π / (n : ℝ) =
      θ + ((-k : ℤ) : ℝ) * (i : ℝ) * π / (n : ℝ) by rw [← hc]; push_cast; ring]]
  exact h

theorem sum_osc_zero (n : ℕ) (hn : 7 ≤ n) (x : ℝ) :
    ∑ i ∈ Finset.range n, osc n x i = 0 := by
  unfold osc
  rw [Finset.sum_add_distrib, Finset.sum_add_distrib,
    ← Finset.mul_sum, ← Finset.mul_sum, ← Finset.mul_sum,
    sum_cos_lin_zero n hn (2 * x) 2 2 (by norm_num) ⟨1, by norm_num⟩ (by norm_num)
      (by norm_num) (by norm_num),
    sum_cos_lin_zero n hn (4 * x) 4 4 (by norm_num) ⟨2, by norm_num⟩ (by norm_num)
      (by norm_num) (by norm_num),
    sum_cos_lin_zero n hn (6 * x) 6 6 (by norm_num) ⟨3, by norm_num⟩ (by norm_num)
      (by norm_num) (by norm_num)]
  ring

/-- The cross-correlation of two oscillating parts: only the equal-speed
products survive, each contributing `(n/2) * cos` of the angle difference. -/
theorem sum_osc_mul (n : ℕ) (hn : 7 ≤ n) (a b : ℝ) :
    ∑ i ∈ Finset.range n, osc n a i * osc n b i =
      ((n : ℝ) / 2) * ((225 / 1024) * cos (2 * a - 2 * b) +
        (36 / 1024) * cos (4 * a - 4 * b) + (1 / 1024) * cos (6 * a - 6 * b)) := by
  have hn0 : 0 < n := by omega
  have hpt : ∀ i ∈ Finset.range n, osc n a i * osc n b i =
      (225 / 1024) * (cos (2 * a - 2 * (i : ℝ) * π / (n : ℝ)) *
        cos (2 * b - 2 * (i : ℝ) * π / (n : ℝ))) +
      (90 / 1024) * (cos (2 * a - 2 * (i : ℝ) * π / (n : ℝ)) *
        cos (4 * b - 4 * (i : ℝ) * π / (n : ℝ))) +
      (15 / 1024) * (cos (2 * a - 2 * (i : ℝ) * π / (n : ℝ)) *
        cos (6 * b - 6 * (i : ℝ) * π / (n : ℝ))) +
      (90 / 1024) * (cos (4 * a - 4 * (i : ℝ) * π / (n : ℝ)) *
        cos (2 * b - 2 * (i : ℝ) * π / (n : ℝ))) +
      (36 / 1024) * (cos (4 * a - 4 * (i : ℝ) * π / (n : ℝ)) *
        cos (4 * b - 4 * (i : ℝ) * π / (n : ℝ))) +
      (6 / 1024) * (cos (4 * a - 4 * (i : ℝ) * π / (n : ℝ)) *
        cos (6 * b - 6 * (i : ℝ) * π / (n : ℝ))) +
      (15 / 1024) * (cos (6 * a - 6 * (i : ℝ) * π / (n : ℝ)) *
        cos (2 * b - 2 * (i : ℝ) * π / (n : ℝ))) +
      (6 / 1024) * (cos (6 * a - 6 * (i : ℝ) * π / (n : ℝ)) *
        cos (4 * b - 4 * (i : ℝ) * π / (n : ℝ))) +
      (1 / 1024) * (cos (6 * a - 6 * (i : ℝ) * π / (n : ℝ)) *
        cos (6 * b - 6 * (i : ℝ) * π / (n : ℝ))) := by
    intro i _
    unfold osc
    ring
  rw [Finset.sum_congr rfl hpt, Finset.sum_add_distrib, Finset.sum_add_distrib,
    Finset.sum_add_distrib, Finset.sum_add_distrib, Finset.sum_add_distrib,
    Finset.sum_add_distrib, Finset.sum_add_distrib, Finset.sum_add_distrib,
    ← Finset.mul_sum, ← Finset.mul_sum, ← Finset.mul_sum, ← Finset.mul_sum,
    ← Finset.mul_sum, ← Finset.mul_sum, ← Finset.mul_sum, ← Finset.mul_sum,
    ← Finset.mul_sum,
    sum_cosmul_eq n hn0 (2 * a) (2 * b) 2 2 (by norm_num) ⟨1, by norm_num⟩
      (not_dvd_small n hn 4 (by norm_num) (by norm_num) (by norm_num)),
    sum_cosmul_ne n hn0 (2 * a) (4 * b) 2 4 2 4 (by norm_num) (by norm_num)
      ⟨1, by norm_num⟩ ⟨2, by norm_num⟩
      (not_dvd_small n hn 2 (by norm_num) (by norm_num) (by norm_num))
      (not_dvd_small n hn 6 (by norm_num) (by norm_num) (by norm_num)),
    sum_cosmul_ne n hn0 (2 * a) (6 * b) 2 6 2 6 (by norm_num) (by norm_num)
      ⟨1, by norm_num⟩ ⟨3, by norm_num⟩
      (not_dvd_small n hn 4 (by norm_num) (by norm_num) (by norm_num))
      (not_dvd_small n hn 8 (by norm_num) (by norm_num) (by norm_num)),
    sum_cosmul_ne n hn0 (4 * a) (2 * b) 4 2 4 2 (by norm_num) (by norm_num)
      ⟨2, by norm_num⟩ ⟨1, by norm_num⟩
      (by rw [show (2 - 4 : ℤ) = -2 by norm_num]
          exact not_dvd_small n hn (-2) (by norm_num) (by norm_num) (by norm_num))
      (not_dvd_small n hn 6 (by norm_num) (by norm_num) (by norm_num)),
    sum_cosmul_eq n hn0 (4 * a) (4 * b) 4 4 (by norm_num) ⟨2, by norm_num⟩
      (not_dvd_small n hn 8 (by norm_num) (by norm_num) (by norm_num)),
    sum_cosmul_ne n hn0 (4 * a) (6 * b) 4 6 4 6 (by norm_num) (by norm_num)
      ⟨2, by norm_num⟩ ⟨3, by norm_num⟩
      (not_dvd_small n hn 2 (by norm_num) (by norm_num) (by norm_num))
      (not_dvd_small n hn 10 (by norm_num) (by norm_num) (by norm_num)),
    sum_cosmul_ne n hn0 (6 * a) (2 * b) 6 2 6 2 (by norm_num) (by norm_num)
      ⟨3, by norm_num⟩ ⟨1, by norm_num⟩
      (by rw [show (2 - 6 : ℤ) = -4 by norm_num]
          exact not_dvd_small n hn (-4) (by norm_num) (by norm_num) (by norm_num))
      (not_dvd_small n hn 8 (by norm_num) (by norm_num) (by norm_num)),
    sum_cosmul_ne n hn0 (6 * a) (4 * b) 6 4 6 4 (by norm_num) (by norm_num)
      ⟨3, by norm_num⟩ ⟨2, by norm_num⟩
      (by rw [show (4 - 6 : ℤ) = -2 by norm_num]
          exact not_dvd_small n hn (-2) (by norm_num) (by norm_num) (by norm_num))
      (not_dvd_small n hn 10 (by norm_num) (by norm_num) (by norm_num)),
    sum_cosmul_eq n hn0 (6 * a) (6 * b) 6 6 (by norm_num) ⟨3, by norm_num⟩
      (not_dvd_small n hn 12 (by norm_num) (by norm_num) (by norm_num))]
  ring

/-- Closed form of the correlation of two sixth-power cosine basis rows for
`7 ≤ n` channels: a function of the angle difference only, maximal at zero
difference. -/
theorem G_closed (n : ℕ) (hn : 7 ≤ n) (a b : ℝ) :
    ∑ i ∈ Finset.range n,
      cos (a - (i : ℝ) * π / (n : ℝ)) ^ 6 * cos (b - (i : ℝ) * π / (n : ℝ)) ^ 6 =
      (n : ℝ) * (100 / 1024) + ((n : ℝ) / 2) * ((225 / 1024) * cos (2 * a - 2 * b) +
        (36 / 1024) * cos (4 * a - 4 * b) + (1 / 1024) * cos (6 * a - 6 * b)) := by
  have hpt : ∀ i ∈ Finset.range n,
      cos (a - (i : ℝ) * π / (n : ℝ)) ^ 6 * cos (b - (i : ℝ) * π / (n : ℝ)) ^ 6 =
        (100 / 1024) + (10 / 32) * osc n b i + (10 / 32) * osc n a i +
          osc n a i * osc n b i := by
    intro i _
    rw [cos6_eq_osc n a i, cos6_eq_osc n b i]
    ring
  rw [Finset.sum_congr rfl hpt, Finset.sum_add_distrib, Finset.sum_add_distrib,
    Finset.sum_add_distrib, ← Finset.mul_sum, ← Finset.mul_sum,
    sum_osc_zero n hn a, sum_osc_zero n hn b, sum_osc_mul n hn a b,
    Finset.sum_const, Finset.card_range, nsmul_eq_mul]
  ring

/-- The response row produced by exact channel recovery, in closed form. -/
theorem predRow_eq (p : Params) (hn : 7 ≤ p.n_channels) (k j : Fin channel_density) :
    (∑ ch, channels p ch k * channels p ch j) =
      (p.n_channels : ℝ) * (100 / 1024) + ((p.n_channels : ℝ) / 2) *
        ((225 / 1024) * cos (2 * sampleGrid k - 2 * sampleGrid j) +
         (36 / 1024) * cos (4 * sampleGrid k - 4 * sampleGrid j) +
         (1 / 1024) * cos (6 * sampleGrid k - 6 * sampleGrid j)) := by
  have h2 : 2 ≤ p.n_channels := by omega
  have hconv : (∑ ch, channels p ch k * channels p ch j) =
      ∑ i ∈ Finset.range p.n_channels.toNat,
        cos (sampleGrid k - (i : ℝ) * π / ((p.n_channels.toNat : ℕ) : ℝ)) ^ 6 *
        cos (sampleGrid j - (i : ℝ) * π / ((p.n_channels.toNat : ℕ) : ℝ)) ^ 6 := by
    rw [show (∑ ch, channels p ch k * channels p ch j) =
        ∑ ch : Fin p.n_channels.toNat,
          cos (sampleGrid k - ((ch : ℕ) : ℝ) * π / ((p.n_channels.toNat : ℕ) : ℝ)) ^ 6 *
          cos (sampleGrid j - ((ch : ℕ) : ℝ) * π / ((p.n_channels.toNat : ℕ) : ℝ)) ^ 6 from
      Finset.sum_congr rfl fun ch _ => by
        simp only [channels, Matrix.of_apply, channel_exp]
        rw [shifts_eq p h2 ch]]
    exact Fin.sum_univ_eq_sum_range
      (fun t : ℕ =>
        cos (sampleGrid k - (t : ℝ) * π / ((p.n_channels.toNat : ℕ) : ℝ)) ^ 6 *
        cos (sampleGrid j - (t : ℝ) * π / ((p.n_channels.toNat : ℕ) : ℝ)) ^ 6)
      p.n_channels.toNat
  rw [hconv, G_closed p.n_channels.toNat (by omega) (sampleGrid k) (sampleGrid j),
    nch_toNat_cast p h2]

/-- With at least 7 channels, the response row generated by grid point `k`
(for `k ≤ 178`) attains its first maximum exactly at `k`. -/
theorem response_argmax (p : Params) (hn : 7 ≤ p.n_channels) (k : Fin channel_density)
    (hk : (k : ℕ) ≤ 178) :
    argmaxIdx (fun j => ∑ ch, channels p ch k * channels p ch j) = k := by
  have hn7R : (7 : ℝ) ≤ (p.n_channels : ℝ) := by exact_mod_cast hn
  have hB : (0 : ℝ) < (p.n_channels : ℝ) / 2 := by linarith
  apply argmaxIdx_eq
  · intro j
    rw [predRow_eq p hn k j, predRow_eq p hn k k, sub_self, sub_self, sub_self,
      Real.cos_zero]
    have hc2 := Real.cos_le_one (2 * sampleGrid k - 2 * sampleGrid j)
    have hc4 := Real.cos_le_one (4 * sampleGrid k - 4 * sampleGrid j)
    have hc6 := Real.cos_le_one (6 * sampleGrid k - 6 * sampleGrid j)
    have hinner : (225 / 1024) * cos (2 * sampleGrid k - 2 * sampleGrid j) +
        (36 / 1024) * cos (4 * sampleGrid k - 4 * sampleGrid j) +
        (1 / 1024) * cos (6 * sampleGrid k - 6 * sampleGrid j) ≤
        (225 / 1024) * 1 + (36 / 1024) * 1 + (1 / 1024) * 1 := by linarith
    have := mul_le_mul_of_nonneg_left hinner (le_of_lt hB)
    linarith
  · intro j hj
    rw [predRow_eq p hn k j, predRow_eq p hn k k, sub_self, sub_self, sub_self,
      Real.cos_zero]
    have hc4 := Real.cos_le_one (4 * sampleGrid k - 4 * sampleGrid j)
    have hc6 := Real.cos_le_one (6 * sampleGrid k - 6 * sampleGrid j)
    have hkj : (j : ℕ) < (k : ℕ) := hj
    have hlt : cos (2 * sampleGrid k - 2 * sampleGrid j) < 1 := by
      rw [sampleGrid_eq, sampleGrid_eq]
      apply lt_of_le_of_ne (Real.cos_le_one _)
      intro hcos1
      obtain ⟨m, hm⟩ := (Real.cos_eq_one_iff _).1 hcos1
      have hπ2 : (2 : ℝ) * π ≠ 0 := by
        have := Real.pi_ne_zero
        positivity
      have hcan : (m : ℝ) * 179 * (2 * π) =
          (((k : ℕ) : ℝ) - ((j : ℕ) : ℝ)) * (2 * π) := by
        have h179 : (179 : ℝ) ≠ 0 := by norm_num
        field_simp at hm
        linarith [hm]
      have hmain : (m : ℝ) * 179 = ((k : ℕ) : ℝ) - ((j : ℕ) : ℝ) :=
        mul_right_cancel₀ hπ2 hcan
      have hZ : (m * 179 : ℤ) = ((k : ℕ) : ℤ) - ((j : ℕ) : ℤ) := by exact_mod_cast hmain
      omega
    have hinner : (225 / 1024) * cos (2 * sampleGrid k - 2 * sampleGrid j) +
        (36 / 1024) * cos (4 * sampleGrid k - 4 * sampleGrid j) +
        (1 / 1024) * cos (6 * sampleGrid k - 6 * sampleGrid j) <
        (225 / 1024) * 1 + (36 / 1024) * 1 + (1 / 1024) * 1 := by linarith
    have := mul_lt_mul_of_pos_left hinner hB
    linarith

/-- With a strictly increasing range, a feature value lying exactly on grid
point `k` is assigned channel index `k` by the nearest-sample rule. -/
theorem argmin_grid (p : Params) (hr : p.range_start < p.range_stop)
    (k : Fin channel_density) :
    argminIdx (fun j => (channelDomain p k - channelDomain p j) ^ 2) = k := by
  have hstep : (0 : ℝ) < (p.range_stop - p.range_start) / 179 :=
    div_pos (by linarith) (by norm_num)
  apply argminIdx_eq
  · intro j
    rw [sub_self]
    simpa using sq_nonneg (channelDomain p k - channelDomain p j)
  · intro j hj
    have hkj : (j : ℕ) < (k : ℕ) := hj
    have hne : channelDomain p k - channelDomain p j ≠ 0 := by
      rw [channelDomain_eq, channelDomain_eq]
      intro h
      have h2 : (((k : ℕ) : ℝ) - ((j : ℕ) : ℝ)) *
          ((p.range_stop - p.range_start) / 179) = 0 := by linarith
      rcases mul_eq_zero.1 h2 with h3 | h3
      · have : ((k : ℕ) : ℝ) = ((j : ℕ) : ℝ) := by linarith
        have : (k : ℕ) = (j : ℕ) := by exact_mod_cast this
        omega
      · exact absurd h3 hstep.ne'
    rw [sub_self]
    have : (0 : ℝ) < (channelDomain p k - channelDomain p j) ^ 2 := by
      rw [← sq_abs]
      exact pow_pos (abs_pos.2 hne) 2
    simpa using this

/-- On noise-free data `F·Wt` with `Wt·Wtᵀ` invertible, the decoded value of
trial `i` is the domain value at the nearest-sample index of `y i`, provided
that index is at most 178 and the channel kernel has the first-argmax peak
recovery property at it. -/
theorem predictVec_grid (p : Params) {un tr : ℕ}
    (Wt : Matrix (Fin p.n_channels.toNat) (Fin un) ℝ) (y : Fin tr → ℝ)
    (hW : IsUnit ((Wt * Wtᵀ).det))
    (hpeak : ∀ k : Fin channel_density, (k : ℕ) ≤ 178 →
      argmaxIdx (fun j => ∑ ch, channels p ch k * channels p ch j) = k)
    (i : Fin tr)
    (hk : ((argminIdx fun kk => (y i - channelDomain p kk) ^ 2) : ℕ) ≤ 178) :
    predictVec (⟨channels p, channelDomain p, Wtᵀ⟩ : Fitted p.n_channels.toNat un)
        (buildF (channels p) (channelDomain p) y * Wt) i =
      channelDomain p (argminIdx fun kk => (y i - channelDomain p kk) ^ 2) := by
  have hcr : channelResponses
      (⟨channels p, channelDomain p, Wtᵀ⟩ : Fitted p.n_channels.toNat un)
      (buildF (channels p) (channelDomain p) y * Wt) =
      buildF (channels p) (channelDomain p) y := by
    unfold channelResponses
    show (lstsq Wtᵀ (buildF (channels p) (channelDomain p) y * Wt)ᵀ)ᵀ =
      buildF (channels p) (channelDomain p) y
    rw [lstsq_responses (buildF (channels p) (channelDomain p) y) Wt hW,
      Matrix.transpose_transpose]
  have hrowfun : (fun j => predResponse
      (⟨channels p, channelDomain p, Wtᵀ⟩ : Fitted p.n_channels.toNat un)
      (buildF (channels p) (channelDomain p) y * Wt) i j) =
      fun j => ∑ ch, channels p ch
        (argminIdx fun kk => (y i - channelDomain p kk) ^ 2) * channels p ch j := by
    funext j
    unfold predResponse
    rw [hcr]
    show (buildF (channels p) (channelDomain p) y * channels p) i j = _
    rw [Matrix.mul_apply]
    refine Finset.sum_congr rfl fun ch _ => ?_
    simp only [buildF, Matrix.of_apply]
  unfold predictVec
  rw [hrowfun, hpeak _ hk]

/-- The concrete estimator `InvertedEncoding(7, 0, 180)` witnessing the
amended round-trip claim. -/
def p7 : Params := ⟨7, 0, 180⟩

theorem p7_start : p7.range_start = 0 := rfl

theorem p7_stop : p7.range_stop = 180 := rfl

theorem p7_lt : p7.range_start < p7.range_stop := by
  rw [p7_start, p7_stop]
  norm_num

/-- Eight training labels lying exactly on grid points `1 .. 7`
(cyclically). -/
noncomputable def yRT : Fin 8 → ℝ :=
  fun i => channelDomain p7 ⟨(i : ℕ) % 7 + 1, by
    have h := Nat.mod_lt (i : ℕ) (show 0 < 7 by norm_num)
    simp only [channel_density]
    omega⟩

/-- Basis column 179 duplicates column 0: `cos(π - s)⁶ = cos(0 - s)⁶`. -/
theorem channels_col_eq (p : Params) (ch : Fin p.n_channels.toNat) :
    channels p ch ⟨179, by norm_num⟩ = channels p ch ⟨0, by norm_num⟩ := by
  simp only [channels, Matrix.of_apply, channel_exp]
  rw [sampleGrid_eq, sampleGrid_eq]
  rw [show ((⟨179, by norm_num⟩ : Fin channel_density) : ℝ) * π / 179 = π by
    norm_num]
  rw [show ((⟨0, by norm_num⟩ : Fin channel_density) : ℝ) * π / 179 = 0 by
    norm_num]
  rw [Real.cos_pi_sub, zero_sub, Real.cos_neg]
  exact Even.neg_pow (⟨3, by norm_num⟩ : Even 6) _

/-- A row whose first and last entries agree never has its first arg-max at
the last index. -/
theorem argmax_ne_last (f : Fin channel_density → ℝ)
    (h : f ⟨0, by norm_num⟩ = f ⟨179, by norm_num⟩) :
    ((argmaxIdx f) : ℕ) ≤ 178 := by
  by_contra hgt
  push_neg at hgt
  have h179 : argmaxIdx f = ⟨179, by norm_num⟩ := by
    apply Fin.ext
    have hlt := (argmaxIdx f).isLt
    simp only [channel_density] at hlt
    show ((argmaxIdx f) : ℕ) = 179
    omega
  have hmax : ∀ j, f j ≤ f ⟨0, by norm_num⟩ := by
    intro j
    have h1 := argmaxIdx_is_max f j
    rw [h179] at h1
    rw [h]
    exact h1
  have hle := argmaxIdx_le f ⟨0, by norm_num⟩ hmax
  rw [h179] at hle
  exact absurd (Fin.le_def.1 hle) (by norm_num)

/-- Any model storing the cosine basis decodes strictly below `range_stop`
when the range is increasing: column 179 equals column 0 and the first
arg-max wins. -/
theorem pred_lt_stop (p : Params) (hr : p.range_start < p.range_stop)
    {un tr : ℕ} (M : Fitted p.n_channels.toNat un)
    (hC : M.C = channels p) (hCD : M.C_D = channelDomain p)
    (X : Matrix (Fin tr) (Fin un) ℝ) (i : Fin tr) :
    predictVec M X i < p.range_stop := by
  have hrow : predResponse M X i ⟨0, by norm_num⟩ =
      predResponse M X i ⟨179, by norm_num⟩ := by
    unfold predResponse
    rw [Matrix.mul_apply, Matrix.mul_apply]
    refine Finset.sum_congr rfl fun ch _ => ?_
    rw [hC, channels_col_eq]
  have hidx : ((argmaxIdx fun j => predResponse M X i j) : ℕ) ≤ 178 :=
    argmax_ne_last _ hrow
  unfold predictVec
  rw [hCD, channelDomain_eq]
  have hstep : (0 : ℝ) < (p.range_stop - p.range_start) / 179 :=
    div_pos (by linarith) (by norm_num)
  have hcast : (((argmaxIdx fun j => predResponse M X i j) : ℕ) : ℝ) ≤ 178 := by
    exact_mod_cast hidx
  have hb := mul_le_mul_of_nonneg_right hcast hstep.le
  linarith

/-- `fit` at the seven-channel configuration with zero data stores zero
coefficients. -/
theorem fit7_zero :
    fit p7 (0 : Matrix (Fin 8) (Fin 7) ℝ) yRT =
      .ok ⟨channels p7, channelDomain p7, 0⟩ := by
  have h := fit_ok p7 (0 : Matrix (Fin 8) (Fin 7) ℝ) yRT (by decide)
    (defineChannels_ok_flat p7 (by decide) (le_of_lt p7_lt))
  rw [lstsq_zero_right, Matrix.transpose_zero] at h
  exact h

/-- The channel domain of the witness configuration starts at zero. -/
theorem channelDomain_p7_zero : channelDomain p7 (0 : Fin channel_density) = 0 := by
  rw [channelDomain_eq, p7_start, p7_stop]
  norm_num

/-- Exact round-trip decoding on the witness instance: every trial's decoded
value equals its label. -/
theorem predictVec_roundtrip7 (i : Fin 8) :
    predictVec (⟨channels p7, channelDomain p7,
        (1 : Matrix (Fin p7.n_channels.toNat) (Fin p7.n_channels.toNat) ℝ)ᵀ⟩ :
          Fitted p7.n_channels.toNat p7.n_channels.toNat)
        (buildF (channels p7) (channelDomain p7) yRT *
          (1 : Matrix (Fin p7.n_channels.toNat) (Fin p7.n_channels.toNat) ℝ)) i =
      yRT i := by
  have hcd : (i : ℕ) % 7 + 1 < channel_density := by
    have h := Nat.mod_lt (i : ℕ) (show 0 < 7 by norm_num)
    simp only [channel_density]
    omega
  have hidx : (argminIdx fun kk => (yRT i - channelDomain p7 kk) ^ 2) =
      ⟨(i : ℕ) % 7 + 1, hcd⟩ := argmin_grid p7 p7_lt _
  have hk : ((argminIdx fun kk => (yRT i - channelDomain p7 kk) ^ 2) : ℕ) ≤ 178 := by
    rw [hidx]
    show (i : ℕ) % 7 + 1 ≤ 178
    have h := Nat.mod_lt (i : ℕ) (show 0 < 7 by norm_num)
    omega
  rw [predictVec_grid p7
    (1 : Matrix (Fin p7.n_channels.toNat) (Fin p7.n_channels.toNat) ℝ) yRT
    (by simp) (fun k hk2 => response_argmax p7 (by decide) k hk2) i hk, hidx]
  rfl

/-- The mean of the constant-zero vector of length eight. -/
theorem npMean_zero_eight : npMean (fun _ : Fin 8 => (0 : ℝ)) = 0 := by
  unfold npMean
  simp

/-- The first witness label is grid point 1. -/
theorem yRT_zero : yRT 0 = 180 / 179 := by
  show channelDomain p7 ⟨1, by norm_num⟩ = 180 / 179
  rw [channelDomain_eq, p7_start, p7_stop]
  norm_num

/-- The second witness label is grid point 2. -/
theorem yRT_one : yRT 1 = 360 / 179 := by
  show channelDomain p7 ⟨2, by norm_num⟩ = 360 / 179
  rw [channelDomain_eq, p7_start, p7_stop]
  norm_num

/-- The witness labels are not constant: the score denominator is nonzero. -/
theorem yRT_var_ne : (∑ i, (yRT i - npMean yRT) ^ 2) ≠ 0 := by
  intro h0
  have hall := (Finset.sum_eq_zero_iff_of_nonneg
    (fun i _ => sq_nonneg (yRT i - npMean yRT))).1 h0
  have h1 : yRT 0 = npMean yRT := by
    have h := hall 0 (Finset.mem_univ 0)
    have h2 := sq_eq_zero_iff.1 h
    linarith
  have h2 : yRT 1 = npMean yRT := by
    have h := hall 1 (Finset.mem_univ 1)
    have h3 := sq_eq_zero_iff.1 h
    linarith
  have h3 : (180 : ℝ) / 179 = 360 / 179 := by
    rw [← yRT_zero, ← yRT_one, h1, h2]
  norm_num at h3

/-- A nonconstant test-label vector with mean zero. -/
def yMean : Fin 8 → ℝ :=
  fun i => (if i = 0 then 1 else 0) + (if i = 1 then -1 else 0)

theorem npMean_yMean : npMean yMean = 0 := by
  unfold npMean yMean
  rw [Finset.sum_add_distrib,
    Fintype.sum_ite_eq' (0 : Fin 8) (fun _ => (1 : ℝ)),
    Fintype.sum_ite_eq' (1 : Fin 8) (fun _ => (-1 : ℝ))]
  norm_num

theorem yMean_var_ne : (∑ i, (yMean i - npMean yMean) ^ 2) ≠ 0 := by
  intro h0
  have hall := (Finset.sum_eq_zero_iff_of_nonneg
    (fun i _ => sq_nonneg (yMean i - npMean yMean))).1 h0
  have h := hall 0 (Finset.mem_univ 0)
  have h2 := sq_eq_zero_iff.1 h
  rw [npMean_yMean] at h2
  have h3 : yMean 0 = 1 := by
    unfold yMean
    rw [if_pos rfl, if_neg (by decide)]
    norm_num
  rw [h3] at h2
  norm_num at h2

/-! ### Claim C2: the counterexamples forcing each amendment condition -/

/-- Claim C6 counterexample: on a validly fitted seven-channel model (zero
data, so zero stored coefficients) with constant ground truth `y = 0`,
every prediction equals `mean y`, yet `score` does not return `0.0`: the
denominator `Σ (y - mean y)²` is zero and the unguarded division makes the
result `1` in the model (`nan` in floating point) — so "whenever every
prediction equals mean(y), score returns 0.0" fails. -/
theorem claim_C6_counterexample :
    fit p7 (0 : Matrix (Fin 8) (Fin 7) ℝ) yRT =
      .ok ⟨channels p7, channelDomain p7, 0⟩ ∧
    predictVec (⟨channels p7, channelDomain p7, 0⟩ : Fitted p7.n_channels.toNat 7)
        (0 : Matrix (Fin 8) (Fin 7) ℝ) =
      (fun _ => npMean (fun _ : Fin 8 => (0 : ℝ))) ∧
    score (⟨channels p7, channelDomain p7, 0⟩ : Fitted p7.n_channels.toNat 7)
        (0 : Matrix (Fin 8) (Fin 7) ℝ) (fun _ : Fin 8 => (0 : ℝ)) = .ok 1 ∧
    (1 : ℝ) ≠ 0 := by
  refine ⟨fit7_zero, ?_, ?_, one_ne_zero⟩
  · rw [predictVec_W_zero _ rfl, npMean_zero_eight]
    funext x
    show channelDomain p7 0 = 0
    exact channelDomain_p7_zero
  · unfold score predict
    rw [if_neg (by norm_num)]
    show Except.ok (1 - (∑ i : Fin 8, ((0 : ℝ) -
        predictVec (⟨channels p7, channelDomain p7, 0⟩ :
          Fitted p7.n_channels.toNat 7)
          (0 : Matrix (Fin 8) (Fin 7) ℝ) i) ^ 2) /
      (∑ _i : Fin 8, ((0 : ℝ) - npMean (fun _ : Fin 8 => (0 : ℝ))) ^ 2)) =
      Except.ok 1
    rw [predictVec_W_zero _ rfl, npMean_zero_eight]
    rw [show (∑ i : Fin 8, ((0 : ℝ) -
        (fun _ : Fin 8 => channelDomain p7 0) i) ^ 2) = 0 by
      rw [Finset.sum_congr rfl fun i _ => by rw [show ((0 : ℝ) -
        (fun _ : Fin 8 => channelDomain p7 0) i) ^ 2 = 0 by
          dsimp only
          rw [channelDomain_p7_zero]
          norm_num]]
      simp]
    norm_num

/-- Witness for the amended claim C6, exercising both clauses
non-vacuously: on the exact round-trip instance (nonconstant labels,
perfect predictions) `score` returns `1`; on a zero-coefficient model with
nonconstant mean-zero test labels (all predictions equal to the mean)
`score` returns `0`. -/
theorem claim_C6_amended_witness :
    score (⟨channels p7, channelDomain p7,
        (1 : Matrix (Fin p7.n_channels.toNat) (Fin p7.n_channels.toNat) ℝ)ᵀ⟩ :
          Fitted p7.n_channels.toNat p7.n_channels.toNat)
        (buildF (channels p7) (channelDomain p7) yRT *
          (1 : Matrix (Fin p7.n_channels.toNat) (Fin p7.n_channels.toNat) ℝ))
        yRT = .ok 1 ∧
    score (⟨channels p7, channelDomain p7, 0⟩ : Fitted p7.n_channels.toNat 7)
        (0 : Matrix (Fin 8) (Fin 7) ℝ) yMean = .ok 0 := by
  constructor
  · have h := claim_C6_amended
      (⟨channels p7, channelDomain p7,
        (1 : Matrix (Fin p7.n_channels.toNat) (Fin p7.n_channels.toNat) ℝ)ᵀ⟩ :
          Fitted p7.n_channels.toNat p7.n_channels.toNat)
      (buildF (channels p7) (channelDomain p7) yRT *
        (1 : Matrix (Fin p7.n_channels.toNat) (Fin p7.n_channels.toNat) ℝ)) yRT
      (show p7.n_channels.toNat < 8 by decide)
    exact h.2.1 (fun i => predictVec_roundtrip7 i) yRT_var_ne
  · have h := claim_C6_amended
      (⟨channels p7, channelDomain p7, 0⟩ : Fitted p7.n_channels.toNat 7)
      (0 : Matrix (Fin 8) (Fin 7) ℝ) yMean (by norm_num)
    refine h.2.2 (fun i => ?_) yMean_var_ne
    rw [congrFun (predictVec_W_zero
      (⟨channels p7, channelDomain p7, 0⟩ : Fitted p7.n_channels.toNat 7) rfl
      (0 : Matrix (Fin 8) (Fin 7) ℝ)) i, npMean_yMean]
    show channelDomain p7 0 = 0
    exact channelDomain_p7_zero

/-- Claim C10 counterexample: the existential half of the claim is false.
On a model actually produced by `fit` at the seven-channel configuration,
every decoded value — for every test input of every size — is strictly
below `range_stop`, even though the last domain entry equals `range_stop`
exactly: basis column 179 duplicates column 0, so the first arg-max is
never index 179. -/
theorem claim_C10_counterexample :
    fit p7 (0 : Matrix (Fin 8) (Fin 7) ℝ) yRT =
      .ok ⟨channels p7, channelDomain p7, 0⟩ ∧
    channelDomain p7 ⟨179, by norm_num⟩ = p7.range_stop ∧
    ∀ (tr : ℕ) (X' : Matrix (Fin tr) (Fin 7) ℝ) (i : Fin tr),
      predictVec (⟨channels p7, channelDomain p7, 0⟩ :
        Fitted p7.n_channels.toNat 7) X' i < p7.range_stop := by
  refine ⟨fit7_zero, ?_, ?_⟩
  · rw [channelDomain_eq]
    push_cast
    ring
  · intro tr X' i
    exact pred_lt_stop p7 p7_lt _ rfl rfl X' i

/-- Claim C10 (amended): the channel domain is 180 linearly spaced points
including both endpoints, and its last element equals `range_stop` exactly
(for every configuration); but `predict` never returns it: for every model
produced by a successful `fit` with an increasing range and every test
input, each decoded value is strictly below `range_stop` — basis column 179
duplicates column 0 (`cos(π - s)⁶ = cos(-s)⁶`), so the first arg-max is
never index 179. -/
theorem claim_C10_amended (p : Params) (hr : p.range_start < p.range_stop)
    {tr un m tr' : ℕ} (X : Matrix (Fin tr) (Fin un) ℝ) (y : Fin m → ℝ)
    (M : Fitted p.n_channels.toNat un) (hfit : fit p X y = .ok M)
    (X' : Matrix (Fin tr') (Fin un) ℝ) (i : Fin tr') :
    (∀ q : Params, channelDomain q ⟨179, by norm_num⟩ = q.range_stop) ∧
    M.C_D ⟨179, by norm_num⟩ = p.range_stop ∧
    predictVec M X' i < p.range_stop := by
  obtain ⟨hC, hCD⟩ := fit_ok_inv p hfit
  have huniv : ∀ q : Params,
      channelDomain q ⟨179, by norm_num⟩ = q.range_stop := by
    intro q
    rw [channelDomain_eq]
    push_cast
    ring
  refine ⟨huniv, ?_, pred_lt_stop p hr M hC hCD X' i⟩
  rw [hCD]
  exact huniv p

/-- Witness for the amended claim C10 on the fitted seven-channel model. -/
theorem claim_C10_witness :
    (⟨channels p7, channelDomain p7, 0⟩ :
      Fitted p7.n_channels.toNat 7).C_D ⟨179, by norm_num⟩ = p7.range_stop ∧
    predictVec (⟨channels p7, channelDomain p7, 0⟩ :
      Fitted p7.n_channels.toNat 7) (0 : Matrix (Fin 8) (Fin 7) ℝ) 0 <
      p7.range_stop :=
  (claim_C10_amended p7 p7_lt (0 : Matrix (Fin 8) (Fin 7) ℝ) yRT
    (⟨channels p7, channelDomain p7, 0⟩ : Fitted p7.n_channels.toNat 7)
    fit7_zero (0 : Matrix (Fin 8) (Fin 7) ℝ) 0).2

end IEM
